import Mathlib

/-!
Verification of the tournament simulation engine.

The development shallowly embeds the Rust sources:
* `math.rs` — exact binomial coefficient and binomial probability mass;
* `component.rs` — elimination series (`BestOfN`), round-robin group stage
  with recursive tie-breaking, tie identification;
* `main.rs` / `runner.rs` — teams, the pairwise win-probability rule, the
  plan resolver and the trial runner.

Machine floats (`f32`/`f64`) are modelled as real numbers; machine
integers as `Nat`/`Int` (win counters only ever increase by one and stay
far below `i32` bounds for the supported group sizes).
-/

namespace Tournaments

/-- Embedding of `math.rs::binomial`: the product of the integer range
`(n-k+1)..=n` divided by the product of `1..=k`, with natural-number
(truncating) subtraction and division exactly as in `usize` arithmetic. -/
def binomial (n k : ℕ) : ℕ :=
  (∏ i in Finset.Icc (n - k + 1) n, i) / ∏ i in Finset.Icc 1 k, i

/-- The numerator range product of `binomial` is the descending factorial. -/
lemma prod_Icc_eq_descFactorial (n k : ℕ) (hk : k ≤ n) :
    (∏ i in Finset.Icc (n - k + 1) n, i) = n.descFactorial k := by
  induction k with
  | zero => simp
  | succ k ih =>
    have hk' : k ≤ n := Nat.le_of_succ_le hk
    have h1 : n - (k + 1) + 1 = n - k := by omega
    have h2 : n - k ≤ n := Nat.sub_le n k
    have hmem : n - k ∉ Finset.Icc (n - k + 1) n := by
      simp
    have hins : Finset.Icc (n - k) n = insert (n - k) (Finset.Icc (n - k + 1) n) := by
      ext x
      simp only [Finset.mem_Icc, Finset.mem_insert]
      omega
    rw [h1, hins, Finset.prod_insert hmem, ih hk', Nat.descFactorial_succ]

/-- The denominator range product of `binomial` is the factorial. -/
lemma prod_Icc_one_eq_factorial (k : ℕ) :
    (∏ i in Finset.Icc 1 k, i) = k.factorial := by
  induction k with
  | zero => simp
  | succ k ih =>
    have hins : Finset.Icc 1 (k + 1) = insert (k + 1) (Finset.Icc 1 k) := by
      ext x
      simp only [Finset.mem_Icc, Finset.mem_insert]
      omega
    have hmem : k + 1 ∉ Finset.Icc 1 k := by simp
    rw [hins, Finset.prod_insert hmem, ih, Nat.factorial_succ]

/-- For `k ≤ n` the range-product quotient computed by `binomial`
agrees with the binomial coefficient. -/
lemma binomial_eq_choose (n k : ℕ) (hk : k ≤ n) : binomial n k = n.choose k := by
  rw [binomial, prod_Icc_eq_descFactorial n k hk, prod_Icc_one_eq_factorial,
    Nat.choose_eq_descFactorial_div_factorial]

/-- Embedding of `math.rs::binomial_distribution`:
`C(n,k) * p^(n-k) * (1-p)^k`, with the float arithmetic idealised over ℝ. -/
def binomial_distribution (p : ℝ) (n k : ℕ) : ℝ :=
  (binomial n k : ℝ) * p ^ (n - k) * (1 - p) ^ k

/-- Embedding of the probability summed by `BestOfN::run`
(`component.rs`): the sum over `k = 0..=(n-1)/2` of
`binomial_distribution p n k`, the probability that competitor 0 wins
the series. -/
def bestOfNTotal (p : ℝ) (n : ℕ) : ℝ :=
  ∑ k in Finset.range ((n - 1) / 2 + 1), binomial_distribution p n k

/-- Embedding of `binomial_tail` as described by the spec: the sum over
`k = 0..=threshold` of `binomial_distribution p n k`. -/
def binomial_tail (p : ℝ) (n threshold : ℕ) : ℝ :=
  ∑ k in Finset.range (threshold + 1), binomial_distribution p n k

lemma bestOfNTotal_eq_tail (p : ℝ) (n : ℕ) :
    bestOfNTotal p n = binomial_tail p n ((n - 1) / 2) := rfl

/-- Reindexing `k ↦ n - k` turns the loss-count tail into the win-count
upper tail. -/
lemma tail_eq_upper_sum (p : ℝ) (t n : ℕ) (hn : n = 2 * t + 1) :
    binomial_tail p n t =
      ∑ j in Finset.Icc (t + 1) n, (n.choose j : ℝ) * p ^ j * (1 - p) ^ (n - j) := by
  rw [binomial_tail]
  refine Finset.sum_nbij' (fun k => n - k) (fun j => n - j) ?_ ?_ ?_ ?_ ?_
  · intro k hk
    simp only [Finset.mem_range] at hk
    simp only [Finset.mem_Icc]
    omega
  · intro j hj
    simp only [Finset.mem_Icc] at hj
    simp only [Finset.mem_range]
    omega
  · intro k hk
    simp only [Finset.mem_range] at hk
    show n - (n - k) = k
    omega
  · intro j hj
    simp only [Finset.mem_Icc] at hj
    show n - (n - j) = j
    omega
  · intro k hk
    simp only [Finset.mem_range] at hk
    have hkn : k ≤ n := by omega
    rw [binomial_distribution, binomial_eq_choose n k hkn]
    have h1 : n - (n - k) = k := by omega
    rw [Nat.choose_symm hkn, h1]

/-- Summing the binomial mass over all `k` gives 1 (binomial theorem). -/
lemma sum_mass_eq_one (p : ℝ) (n : ℕ) :
    ∑ k in Finset.range (n + 1), (n.choose k : ℝ) * p ^ (n - k) * (1 - p) ^ k = 1 := by
  calc ∑ k in Finset.range (n + 1), (n.choose k : ℝ) * p ^ (n - k) * (1 - p) ^ k
      = ∑ k in Finset.range (n + 1), (1 - p) ^ k * p ^ (n - k) * (n.choose k : ℝ) :=
        Finset.sum_congr rfl (by intro k hk; ring)
    _ = ((1 - p) + p) ^ n := (add_pow (1 - p) p n).symm
    _ = 1 := by norm_num

/-- C1: the elimination-series majority probability computed by
`BestOfN::run` equals the probability of winning at least `(n+1)/2` of
`n` games. -/
theorem claim_C1_bestOfN_majority (n : ℕ) (p : ℝ) (hn : Odd n)
    (h0 : 0 ≤ p) (h1 : p ≤ 1) :
    bestOfNTotal p n =
      ∑ j in Finset.Icc ((n + 1) / 2) n, (n.choose j : ℝ) * p ^ j * (1 - p) ^ (n - j) := by
  obtain ⟨t, ht⟩ := hn
  have e1 : (n - 1) / 2 = t := by omega
  have e2 : (n + 1) / 2 = t + 1 := by omega
  rw [bestOfNTotal_eq_tail, e1, e2, tail_eq_upper_sum p t n (by omega)]

theorem claim_C1_witness :
    Odd 3 ∧ (0 : ℝ) ≤ 1 / 2 ∧ (1 / 2 : ℝ) ≤ 1 ∧
      bestOfNTotal (1 / 2) 3 =
        ∑ j in Finset.Icc 2 3, ((3 : ℕ).choose j : ℝ) * (1 / 2) ^ j * (1 - 1 / 2) ^ (3 - j) :=
  ⟨by decide, by norm_num, by norm_num,
    claim_C1_bestOfN_majority 3 (1 / 2) (by decide) (by norm_num) (by norm_num)⟩

/-- C7: majority symmetry, `binomial_tail(p, n, (n-1)/2) +
binomial_tail(1-p, n, (n-1)/2) = 1` for odd `n` and `p ∈ [0,1]`; and the
concrete instance `binomial_tail(0.5, 3, 1) = 0.5`. -/
theorem claim_C7_tail_symmetry :
    (∀ (n : ℕ) (p : ℝ), Odd n → 0 ≤ p → p ≤ 1 →
      binomial_tail p n ((n - 1) / 2) + binomial_tail (1 - p) n ((n - 1) / 2) = 1) ∧
    binomial_tail (0.5 : ℝ) 3 1 = 0.5 := by
  constructor
  · intro n p hn h0 h1
    obtain ⟨t, ht⟩ := hn
    have e1 : (n - 1) / 2 = t := by omega
    rw [e1, tail_eq_upper_sum (1 - p) t n (by omega), binomial_tail]
    have hfirst : ∀ k ∈ Finset.range (t + 1),
        binomial_distribution p n k = (n.choose k : ℝ) * p ^ (n - k) * (1 - p) ^ k := by
      intro k hk
      simp only [Finset.mem_range] at hk
      rw [binomial_distribution, binomial_eq_choose n k (by omega)]
    have hsecond : ∀ j ∈ Finset.Icc (t + 1) n,
        (n.choose j : ℝ) * (1 - p) ^ j * (1 - (1 - p)) ^ (n - j) =
          (n.choose j : ℝ) * p ^ (n - j) * (1 - p) ^ j := by
      intro j hj
      ring
    rw [Finset.sum_congr rfl hfirst, Finset.sum_congr rfl hsecond]
    have hsplit :
        (∑ k in Finset.Ico 0 (t + 1), (n.choose k : ℝ) * p ^ (n - k) * (1 - p) ^ k) +
          ∑ k in Finset.Ico (t + 1) (n + 1), (n.choose k : ℝ) * p ^ (n - k) * (1 - p) ^ k =
          ∑ k in Finset.Ico 0 (n + 1), (n.choose k : ℝ) * p ^ (n - k) * (1 - p) ^ k :=
      Finset.sum_Ico_consecutive _ (Nat.zero_le _) (by omega)
    rw [← Finset.range_eq_Ico] at hsplit
    rw [Nat.Ico_succ_right] at hsplit
    rw [hsplit, sum_mass_eq_one]
  · have hb0 : binomial 3 0 = 1 := by decide
    have hb1 : binomial 3 1 = 3 := by decide
    rw [binomial_tail]
    rw [Finset.sum_range_succ, Finset.sum_range_one]
    rw [binomial_distribution, binomial_distribution, hb0, hb1]
    norm_num

theorem claim_C7_witness :
    Odd 3 ∧ (0 : ℝ) ≤ 1 / 2 ∧ (1 / 2 : ℝ) ≤ 1 ∧
      binomial_tail (1 / 2) 3 ((3 - 1) / 2) + binomial_tail (1 - 1 / 2) 3 ((3 - 1) / 2) = 1 :=
  ⟨by decide, by norm_num, by norm_num,
    claim_C7_tail_symmetry.1 3 (1 / 2) (by decide) (by norm_num) (by norm_num)⟩

/-! ## Teams and the pairwise win-probability rule (`main.rs`) -/

/-- Embedding of `main.rs::STRONG_TEAM_ADVANTAGE`. -/
def STRONG_TEAM_ADVANTAGE : ℝ := 0.05

/-- Embedding of `main.rs::Team`. -/
structure Team where
  index : ℕ
  strong : Bool
deriving DecidableEq, Repr

/-- Embedding of `Team::probability_to_win_against`: the branch on the
callee's `strong` flag is taken first, then the opponent's. -/
def Team.probability_to_win_against (self other : Team) : ℝ :=
  if self.strong then 0.5 + STRONG_TEAM_ADVANTAGE
  else if other.strong then 0.5 - STRONG_TEAM_ADVANTAGE
  else 0.5

/-- C4 counterexample: between two competitors that are both strong the
code returns `0.5 + advantage`, not `0.5` as the claim states for equal
strength-status. -/
theorem claim_C4_counterexample :
    Team.probability_to_win_against ⟨0, true⟩ ⟨1, true⟩ = 0.5 + STRONG_TEAM_ADVANTAGE ∧
      Team.probability_to_win_against ⟨0, true⟩ ⟨1, true⟩ ≠ 0.5 := by
  constructor
  · rfl
  · rw [Team.probability_to_win_against]
    simp only [if_true]
    rw [STRONG_TEAM_ADVANTAGE]
    norm_num

/-- C4 amended: a strong competitor wins with probability
`0.5 + advantage` against any opponent (including a strong one, since
the callee's flag is tested first); a non-strong competitor wins with
probability `0.5 - advantage` against a strong opponent; two non-strong
competitors give exactly `0.5`. -/
theorem claim_C4_win_probability (a b : Team) :
    (a.strong = true →
      a.probability_to_win_against b = 0.5 + STRONG_TEAM_ADVANTAGE) ∧
    (a.strong = false → b.strong = true →
      a.probability_to_win_against b = 0.5 - STRONG_TEAM_ADVANTAGE) ∧
    (a.strong = false → b.strong = false →
      a.probability_to_win_against b = 0.5) := by
  refine ⟨?_, ?_, ?_⟩ <;>
    · intros
      simp_all [Team.probability_to_win_against]

theorem claim_C4_witness :
    Team.probability_to_win_against ⟨0, true⟩ ⟨1, false⟩ = 0.5 + STRONG_TEAM_ADVANTAGE ∧
    Team.probability_to_win_against ⟨0, false⟩ ⟨1, true⟩ = 0.5 - STRONG_TEAM_ADVANTAGE ∧
    Team.probability_to_win_against ⟨0, false⟩ ⟨1, false⟩ = 0.5 :=
  ⟨(claim_C4_win_probability ⟨0, true⟩ ⟨1, false⟩).1 rfl,
   (claim_C4_win_probability ⟨0, false⟩ ⟨1, true⟩).2.1 rfl rfl,
   (claim_C4_win_probability ⟨0, false⟩ ⟨1, false⟩).2.2 rfl rfl⟩

/-! ## Components and the plan resolver (`component.rs`, `main.rs`) -/

/-- Embedding of `component.rs::GroupStage` (configuration record). -/
structure GroupStage where
  num_games_per_series : ℕ
deriving DecidableEq, Repr

/-- Embedding of `component.rs::ComponentType`. -/
inductive ComponentType where
  | bestOf1
  | bestOf3
  | bestOf5
  | bestOf7
  | bestOfN (n : ℕ)
  | groupStage (g : GroupStage)
deriving DecidableEq, Repr

/-- Embedding of `component.rs::Component<P>`. -/
structure Component (P : Type) where
  type : ComponentType
  teams : List P
deriving DecidableEq, Repr

/-- Embedding of `main.rs::TeamIdentifier<P>`. -/
inductive TeamIdentifier (P : Type) where
  | team (num : ℕ)
  | fromPreviousComponent (p : P)
deriving DecidableEq, Repr

/-- A named placement reference: `(placement name, component name)`. -/
def NamedPlacement := String × String
deriving instance DecidableEq for NamedPlacement

/-- Embedding of `main.rs::Placement`. -/
structure Placement where
  component : ℕ
  position : ℕ
deriving DecidableEq, Repr

/-- Embedding of `GroupStage::get_placement_index_from_placement_name`;
the `panic!` branch on an unknown name is modelled as `none`. -/
def GroupStage.get_placement_index_from_placement_name
    (_ : GroupStage) (placement : String) : Option ℕ :=
  match placement with
  | "1st" => some 0
  | "2nd" => some 1
  | "3rd" => some 2
  | "4th" => some 3
  | "5th" => some 4
  | "6th" => some 5
  | "7th" => some 6
  | "8th" => some 7
  | _ => none

/-- Embedding of `Component::get_placement_index_from_placement_name`;
the `panic!` branch on an unknown name is modelled as `none`. -/
def Component.get_placement_index_from_placement_name
    (c : Component P) (placement : String) : Option ℕ :=
  match c.type with
  | ComponentType.groupStage g => g.get_placement_index_from_placement_name placement
  | _ =>
    match placement with
    | "winner" => some 0
    | "loser" => some 1
    | _ => none

/-- Embedding of `main.rs::Tournament` (the scoring `HashMap` is
modelled as its list of entries). -/
structure Tournament where
  components : List (String × Component (TeamIdentifier NamedPlacement))
  scoring : List (TeamIdentifier NamedPlacement × ℝ)

/-- Embedding of the enumerated `find` in
`Runner::named_placement_to_placement`: the first component whose name
matches, together with its declaration index. -/
def findComponentAux (cname : String) :
    List (String × Component (TeamIdentifier NamedPlacement)) → ℕ →
      Option (ℕ × Component (TeamIdentifier NamedPlacement))
  | [], _ => none
  | (nm, c) :: rest, i =>
    if nm = cname then some (i, c) else findComponentAux cname rest (i + 1)

/-- Embedding of `Runner::named_placement_to_placement`; the `unwrap`
and `panic!` failure paths are modelled as `none`. -/
def named_placement_to_placement (T : Tournament)
    (team : TeamIdentifier NamedPlacement) : Option Placement :=
  match team with
  | TeamIdentifier.team num => some ⟨0, num⟩
  | TeamIdentifier.fromPreviousComponent (placement, cname) =>
    match findComponentAux cname T.components 0 with
    | none => none
    | some (idx, comp) =>
      match comp.get_placement_index_from_placement_name placement with
      | none => none
      | some pidx => some ⟨idx + 1, pidx⟩

/-- The scoring half of `Runner::new`: every scoring entry is resolved
with `named_placement_to_placement`. -/
def resolvedScoring (T : Tournament) : List (Option Placement × ℝ) :=
  T.scoring.map (fun pr => (named_placement_to_placement T pr.1, pr.2))

/-- The property that resolution only ever points at stages declared
strictly earlier than the referencing stage (resolved component index
`≤` the referencing stage's declaration index, i.e. referenced
declaration index `<` it). -/
def referencesEarlierOnly (T : Tournament) : Prop :=
  ∀ i pr, T.components[i]? = some pr →
    ∀ t ∈ pr.2.teams, ∀ pl, named_placement_to_placement T t = some pl →
      pl.component ≤ i

/-- A concrete tournament whose first stage references the second,
later-declared stage. -/
def forwardRefTournament : Tournament where
  components :=
    [("a", ⟨ComponentType.bestOf1,
        [TeamIdentifier.fromPreviousComponent ("winner", "b"),
         TeamIdentifier.team 0]⟩),
     ("b", ⟨ComponentType.bestOf1,
        [TeamIdentifier.team 1, TeamIdentifier.team 2]⟩)]
  scoring := []

/-- C3 counterexample: the resolver does not require the referenced
stage to be declared earlier — in `forwardRefTournament` stage 0
references stage `"b"` declared at index 1, resolution succeeds with
resolved component index `2 > 0`, so `referencesEarlierOnly` fails. -/
theorem claim_C3_counterexample :
    named_placement_to_placement forwardRefTournament
        (TeamIdentifier.fromPreviousComponent ("winner", "b")) = some ⟨2, 0⟩ ∧
      ¬ referencesEarlierOnly forwardRefTournament := by
  constructor
  · rfl
  · intro h
    have := h 0 ("a", ⟨ComponentType.bestOf1,
        [TeamIdentifier.fromPreviousComponent ("winner", "b"),
         TeamIdentifier.team 0]⟩) rfl
        (TeamIdentifier.fromPreviousComponent ("winner", "b"))
        (by simp [forwardRefTournament]) ⟨2, 0⟩ rfl
    simp at this

/-- C3 amended: the resolver maps a raw-entrant reference `#k` to
`{stage_index 0, position k}` and a named reference to the first
component with a matching name at declaration index `S` to
`{stage_index S+1, position q}` with `q` given by the stage-kind name
map (`winner`→0 / `loser`→1 for series, `1st`..`8th`→0..7 for groups);
the same mapping is applied to every scoring entry.  The resolver does
not itself check that the referenced stage was declared earlier than
the referencing stage. -/
theorem claim_C3_plan_resolution :
    (∀ (T : Tournament) (k : ℕ),
      named_placement_to_placement T (TeamIdentifier.team k) = some ⟨0, k⟩) ∧
    (∀ (T : Tournament) (pname cname : String) (S : ℕ)
        (comp : Component (TeamIdentifier NamedPlacement)) (q : ℕ),
      findComponentAux cname T.components 0 = some (S, comp) →
      comp.get_placement_index_from_placement_name pname = some q →
      named_placement_to_placement T
        (TeamIdentifier.fromPreviousComponent (pname, cname)) = some ⟨S + 1, q⟩) ∧
    (∀ (c : Component (TeamIdentifier NamedPlacement)),
      (∀ g, c.type ≠ ComponentType.groupStage g) →
      c.get_placement_index_from_placement_name "winner" = some 0 ∧
      c.get_placement_index_from_placement_name "loser" = some 1) ∧
    (∀ (c : Component (TeamIdentifier NamedPlacement)) (g : GroupStage),
      c.type = ComponentType.groupStage g →
      c.get_placement_index_from_placement_name "1st" = some 0 ∧
      c.get_placement_index_from_placement_name "2nd" = some 1 ∧
      c.get_placement_index_from_placement_name "3rd" = some 2 ∧
      c.get_placement_index_from_placement_name "4th" = some 3 ∧
      c.get_placement_index_from_placement_name "5th" = some 4 ∧
      c.get_placement_index_from_placement_name "6th" = some 5 ∧
      c.get_placement_index_from_placement_name "7th" = some 6 ∧
      c.get_placement_index_from_placement_name "8th" = some 7) ∧
    (∀ (T : Tournament) (pr : TeamIdentifier NamedPlacement × ℝ),
      pr ∈ T.scoring →
      (named_placement_to_placement T pr.1, pr.2) ∈ resolvedScoring T) := by
  refine ⟨?_, ?_, ?_, ?_, ?_⟩
  · intro T k
    rfl
  · intro T pname cname S comp q hfind hidx
    rw [named_placement_to_placement, hfind]
    dsimp only
    rw [hidx]
  · intro c hc
    obtain ⟨ct, tms⟩ := c
    cases ct with
    | groupStage g => exact absurd rfl (hc g)
    | bestOf1 => exact ⟨rfl, rfl⟩
    | bestOf3 => exact ⟨rfl, rfl⟩
    | bestOf5 => exact ⟨rfl, rfl⟩
    | bestOf7 => exact ⟨rfl, rfl⟩
    | bestOfN n => exact ⟨rfl, rfl⟩
  · intro c g hg
    obtain ⟨ct, tms⟩ := c
    have hg' : ct = ComponentType.groupStage g := hg
    subst hg'
    exact ⟨rfl, rfl, rfl, rfl, rfl, rfl, rfl, rfl⟩
  · intro T pr hpr
    exact List.mem_map.mpr ⟨pr, hpr, rfl⟩

theorem claim_C3_witness :
    (named_placement_to_placement forwardRefTournament (TeamIdentifier.team 5) =
      some ⟨0, 5⟩) ∧
    findComponentAux "b" forwardRefTournament.components 0 =
      some (1, (⟨ComponentType.bestOf1, [TeamIdentifier.team 1, TeamIdentifier.team 2]⟩ :
        Component (TeamIdentifier NamedPlacement))) ∧
    (Component.get_placement_index_from_placement_name
      (⟨ComponentType.bestOf1, [TeamIdentifier.team 1, TeamIdentifier.team 2]⟩ :
        Component (TeamIdentifier NamedPlacement)) "loser" = some 1) ∧
    named_placement_to_placement forwardRefTournament
      (TeamIdentifier.fromPreviousComponent ("loser", "b")) = some ⟨2, 1⟩ :=
  ⟨claim_C3_plan_resolution.1 forwardRefTournament 5, rfl, rfl,
    claim_C3_plan_resolution.2.1 forwardRefTournament "loser" "b" 1
      (⟨ComponentType.bestOf1, [TeamIdentifier.team 1, TeamIdentifier.team 2]⟩ :
        Component (TeamIdentifier NamedPlacement)) 1 rfl rfl⟩

/-! ## Round-robin group stage (`component.rs`)

`GroupStage::run` keeps a `HashMap<TeamIndex, i32>` of win counts,
modelled here as an association list keyed by team index.  The random
number generator feeding `Team::wins_against` is abstracted as a stream
`draws : ℕ → Bool` of game outcomes (`true` = the first team of the
pairing wins), consumed one draw per game through a running counter. -/

/-- Increment the win count stored for `idx`.  `HashMap` keys are
unique, so updating every matching entry coincides with the source's
`get_mut(&idx)` when the team indices are pairwise distinct. -/
def bumpWin (idx : ℕ) (w : List (ℕ × ℤ)) : List (ℕ × ℤ) :=
  w.map (fun e => if e.1 = idx then (e.1, e.2 + 1) else e)

/-- The win count recorded for key `k` (sum of all entries with that
key; the unique entry's value when keys are distinct). -/
def getWins (w : List (ℕ × ℤ)) (k : ℕ) : ℤ :=
  ((w.filter (fun e => e.1 = k)).map Prod.snd).sum

/-- The innermost loop of `GroupStage::run`: the
`num_games_per_series` games of one pairing.  Modelled from the spec:
`Team::wins_against` (absent from the sources) decides each game by an
independent uniform draw against the pairwise win probability; the
stream `draws` records those Boolean outcomes. -/
def playSeries (i1 i2 : ℕ) (draws : ℕ → Bool) :
    ℕ → ℕ → List (ℕ × ℤ) → List (ℕ × ℤ) × ℕ
  | 0, c, w => (w, c)
  | g + 1, c, w =>
    playSeries i1 i2 draws g (c + 1)
      (if draws c then bumpWin i1 w else bumpWin i2 w)

/-- The middle loop: `team1` plays every later team in the input. -/
def playOpponents (g : ℕ) (draws : ℕ → Bool) (t : Team) :
    List Team → ℕ → List (ℕ × ℤ) → List (ℕ × ℤ) × ℕ
  | [], c, w => (w, c)
  | u :: rest, c, w =>
    let r := playSeries t.index u.index draws g c w
    playOpponents g draws t rest r.2 r.1

/-- The outer loop: every unordered pair `(i, j)`, `i < j`, in input
order. -/
def playAllPairs (g : ℕ) (draws : ℕ → Bool) :
    List Team → ℕ → List (ℕ × ℤ) → List (ℕ × ℤ) × ℕ
  | [], c, w => (w, c)
  | t :: rest, c, w =>
    let r := playOpponents g draws t rest c w
    playAllPairs g draws rest r.2 r.1

/-- The win-count map built by the pairwise game loop of
`GroupStage::run`, starting from the zero-initialised map over the
input teams. -/
def computeWins (g : ℕ) (teams : List Team) (draws : ℕ → Bool) :
    List (ℕ × ℤ) :=
  (playAllPairs g draws teams 0 (teams.map (fun t => (t.index, 0)))).1

/-! ## Tie identification (`component.rs::identify_tied_teams`) -/

/-- Embedding of `component.rs::TiedTeams`. -/
structure TiedTeams where
  teams : List ℕ
  start_index : ℕ
  end_index : ℕ
deriving DecidableEq, Repr

/-- Itertools' `group_by` on an enumerated slice: maximal consecutive
groups of equal key. -/
def chunkBy (key : Team → ℤ) : List (ℕ × Team) → List (List (ℕ × Team))
  | [] => []
  | x :: xs =>
    match chunkBy key xs with
    | [] => [[x]]
    | (y :: ys) :: gs =>
      if key x.2 = key y.2 then (x :: y :: ys) :: gs
      else [x] :: (y :: ys) :: gs
    | [] :: _ => [[x]]

/-- `min().unwrap()` over a nonempty list (0 on the impossible empty
case). -/
def listMin : List ℕ → ℕ
  | [] => 0
  | x :: xs => xs.foldl min x

/-- `max().unwrap()` over a nonempty list (0 on the impossible empty
case). -/
def listMax : List ℕ → ℕ
  | [] => 0
  | x :: xs => xs.foldl max x

/-- Embedding of `component.rs::identify_tied_teams`: enumerate, group
consecutive equal win counts, keep groups of length `> 1`, record the
group's position span and team indices. -/
def identify_tied_teams (teams : List Team) (w : List (ℕ × ℤ)) :
    List TiedTeams :=
  ((chunkBy (fun t => getWins w t.index) teams.enum).filter
      (fun grp => grp.length > 1)).map
    (fun grp =>
      { start_index := listMin (grp.map Prod.fst)
        end_index := listMax (grp.map Prod.fst)
        teams := grp.map (fun pr => pr.2.index) })

/-- Embedding of `component.rs::sorted`: every window of two
consecutive teams has non-increasing win counts. -/
def sortedByWins (w : List (ℕ × ℤ)) : List Team → Bool
  | a :: b :: rest =>
    decide (getWins w b.index ≤ getWins w a.index) && sortedByWins w (b :: rest)
  | _ => true

/-- The win-count key at position `i`, `none` out of range. -/
def keyAt (key : Team → ℤ) (ts : List Team) (i : ℕ) : Option ℤ :=
  (ts[i]?).map key

/-- Position span `[s, e]` is a maximal contiguous run of equal win
count of length at least 2. -/
def IsMaxRun (key : Team → ℤ) (ts : List Team) (s e : ℕ) : Prop :=
  s < e ∧ e < ts.length ∧
  (∀ i, s ≤ i → i ≤ e → keyAt key ts i = keyAt key ts s) ∧
  (s = 0 ∨ keyAt key ts (s - 1) ≠ keyAt key ts s) ∧
  (e + 1 = ts.length ∨ keyAt key ts (e + 1) ≠ keyAt key ts e)

/-- Structural description of the chunk list produced by `chunkBy` on
an enumerated suffix starting at position `n`: the input splits as
`t :: (run ++ rest)` where `run` is the maximal prefix sharing `t`'s
key, the first chunk is that prefix with its positions, and the
remaining chunks describe `rest`. -/
inductive ChunksSpec (key : Team → ℤ) :
    ℕ → List Team → List (List (ℕ × Team)) → Prop
  | nil (n : ℕ) : ChunksSpec key n [] []
  | cons (n : ℕ) (t : Team) (run rest : List Team)
      (cs : List (List (ℕ × Team))) :
      (∀ u ∈ run, key u = key t) →
      (rest = [] ∨ ∃ v vs, rest = v :: vs ∧ key v ≠ key t) →
      ChunksSpec key (n + (run.length + 1)) rest cs →
      ChunksSpec key n (t :: (run ++ rest)) (List.enumFrom n (t :: run) :: cs)

lemma chunkBy_spec (key : Team → ℤ) :
    ∀ (ts : List Team) (n : ℕ),
      ChunksSpec key n ts (chunkBy key (List.enumFrom n ts)) := by
  intro ts
  induction ts with
  | nil => intro n; exact ChunksSpec.nil n
  | cons t ts' ih =>
    intro n
    have IH := ih (n + 1)
    generalize hcs : chunkBy key (List.enumFrom (n + 1) ts') = cs at IH
    cases IH with
    | nil =>
      have hgoal : chunkBy key (List.enumFrom n [t]) = [[(n, t)]] := rfl
      rw [hgoal]
      exact ChunksSpec.cons n t [] [] [] (by simp) (Or.inl rfl) (ChunksSpec.nil _)
    | cons m t' run rest cs' hrun hb hrec =>
      have hstep : chunkBy key (List.enumFrom n (t :: t' :: (run ++ rest))) =
          if key t = key t' then
            ((n, t) :: List.enumFrom (n + 1) (t' :: run)) :: cs'
          else [(n, t)] :: List.enumFrom (n + 1) (t' :: run) :: cs' := by
        show (match chunkBy key (List.enumFrom (n + 1) (t' :: (run ++ rest))) with
          | [] => [[(n, t)]]
          | (y :: ys) :: gs =>
            if key t = key y.2 then ((n, t) :: y :: ys) :: gs
            else [(n, t)] :: (y :: ys) :: gs
          | [] :: _ => [[(n, t)]]) = _
        rw [hcs]
        rfl
      rw [hstep]
      by_cases hkey : key t = key t'
      · rw [if_pos hkey]
        have hrec' : ChunksSpec key (n + ((t' :: run).length + 1)) rest cs' := by
          have harith : (n + 1) + (run.length + 1) = n + ((t' :: run).length + 1) := by
            simp only [List.length_cons]
            omega
          rwa [harith] at hrec
        have hrun' : ∀ u ∈ t' :: run, key u = key t := by
          intro u hu
          rcases List.mem_cons.mp hu with h | h
          · rw [h, hkey]
          · rw [hrun u h, hkey]
        have hb' : rest = [] ∨ ∃ v vs, rest = v :: vs ∧ key v ≠ key t := by
          rcases hb with h | ⟨v, vs, hvs, hne⟩
          · exact Or.inl h
          · exact Or.inr ⟨v, vs, hvs, by rw [hkey]; exact hne⟩
        exact ChunksSpec.cons n t (t' :: run) rest cs' hrun' hb' hrec'
      · rw [if_neg hkey]
        have houter : ChunksSpec key ((n + 1)) (t' :: (run ++ rest))
            (List.enumFrom (n + 1) (t' :: run) :: cs') := by
          have harith : n + 1 + (run.length + 1) = (n + 1) + (run.length + 1) := rfl
          exact ChunksSpec.cons (n + 1) t' run rest cs' hrun hb hrec
        have hb2 : t' :: (run ++ rest) = [] ∨
            ∃ v vs, t' :: (run ++ rest) = v :: vs ∧ key v ≠ key t :=
          Or.inr ⟨t', run ++ rest, rfl, fun h => hkey h.symm⟩
        have := ChunksSpec.cons n t [] (t' :: (run ++ rest))
          (List.enumFrom (n + 1) (t' :: run) :: cs') (by simp) hb2
          (by simpa using houter)
        simpa using this

lemma keyAt_lt (key : Team → ℤ) (t : Team) (run rest : List Team) (i : ℕ)
    (h : i < run.length + 1) :
    keyAt key (t :: (run ++ rest)) i = keyAt key (t :: run) i := by
  rw [keyAt, keyAt, show t :: (run ++ rest) = (t :: run) ++ rest from rfl,
    List.getElem?_append_left (by simpa using h)]

lemma keyAt_shift (key : Team → ℤ) (t : Team) (run rest : List Team) (i : ℕ) :
    keyAt key (t :: (run ++ rest)) (run.length + 1 + i) = keyAt key rest i := by
  rw [keyAt, keyAt, show t :: (run ++ rest) = (t :: run) ++ rest from rfl,
    List.getElem?_append_right (by simp)]
  have harith : run.length + 1 + i - (t :: run).length = i := by
    simp
  rw [harith]

lemma keyAt_run_const (key : Team → ℤ) (t : Team) (run rest : List Team)
    (hrun : ∀ u ∈ run, key u = key t) (i : ℕ) (h : i ≤ run.length) :
    keyAt key (t :: (run ++ rest)) i = some (key t) := by
  rw [keyAt_lt key t run rest i (by omega), keyAt]
  cases i with
  | zero => simp
  | succ j =>
    have hj : j < run.length := by omega
    rw [List.getElem?_cons_succ, List.getElem?_eq_getElem hj]
    simp [hrun _ (List.getElem_mem hj)]

lemma foldl_min_of_le (xs : List ℕ) : ∀ (x : ℕ), (∀ y ∈ xs, x ≤ y) →
    xs.foldl min x = x := by
  induction xs with
  | nil => intro x _; rfl
  | cons y ys ih =>
    intro x h
    have hxy : min x y = x := Nat.min_eq_left (h y (by simp))
    simp only [List.foldl_cons, hxy]
    exact ih x (fun z hz => h z (by simp [hz]))

lemma foldl_max_range' : ∀ (k n x : ℕ), x ≤ n →
    List.foldl max x (List.range' n k) = if k = 0 then x else n + k - 1 := by
  intro k
  induction k with
  | zero => intro n x _; rfl
  | succ k ih =>
    intro n x hx
    rw [List.range'_succ, List.foldl_cons, Nat.max_eq_right hx,
      ih (n + 1) n (by omega)]
    split_ifs
    all_goals first | contradiction | omega

lemma listMin_enumFrom (n : ℕ) (t : Team) (run : List Team) :
    listMin ((List.enumFrom n (t :: run)).map Prod.fst) = n := by
  rw [List.enumFrom_map_fst, List.length_cons, List.range'_succ, listMin]
  refine foldl_min_of_le _ n ?_
  intro y hy
  obtain ⟨i, _, rfl⟩ := List.mem_range'.mp hy
  omega

lemma listMax_enumFrom (n : ℕ) (t : Team) (run : List Team) :
    listMax ((List.enumFrom n (t :: run)).map Prod.fst) = n + run.length := by
  rw [List.enumFrom_map_fst, List.length_cons, List.range'_succ, listMax,
    foldl_max_range' run.length (n + 1) n (by omega)]
  split_ifs <;> omega

lemma tieTeams_enumFrom (n : ℕ) (l : List Team) :
    (List.enumFrom n l).map (fun pr => pr.2.index) = l.map Team.index := by
  rw [show (fun pr : ℕ × Team => pr.2.index) = Team.index ∘ Prod.snd from rfl,
    ← List.map_map, List.enumFrom_map_snd]

/-- The filter-and-map step of `identify_tied_teams`, applied to a
chunk list. -/
def tiesOfChunks (cs : List (List (ℕ × Team))) : List TiedTeams :=
  (cs.filter (fun grp => grp.length > 1)).map
    (fun grp =>
      { start_index := listMin (grp.map Prod.fst)
        end_index := listMax (grp.map Prod.fst)
        teams := grp.map (fun pr => pr.2.index) })

lemma identify_eq_tiesOfChunks (teams : List Team) (w : List (ℕ × ℤ)) :
    identify_tied_teams teams w =
      tiesOfChunks (chunkBy (fun t => getWins w t.index) teams.enum) := rfl

lemma mem_tiesOfChunks_cons (g : List (ℕ × Team))
    (cs : List (List (ℕ × Team))) (r : TiedTeams) :
    r ∈ tiesOfChunks (g :: cs) ↔
      (1 < g.length ∧
        r = { start_index := listMin (g.map Prod.fst)
              end_index := listMax (g.map Prod.fst)
              teams := g.map (fun pr => pr.2.index) }) ∨
      r ∈ tiesOfChunks cs := by
  rw [tiesOfChunks, tiesOfChunks, List.filter_cons]
  by_cases h : 1 < g.length
  · rw [if_pos (by simpa using h), List.map_cons, List.mem_cons]
    constructor
    · rintro (h1 | h2)
      · exact Or.inl ⟨h, h1⟩
      · exact Or.inr h2
    · rintro (⟨_, h1⟩ | h2)
      · exact Or.inl h1
      · exact Or.inr h2
  · rw [if_neg (by simpa using h)]
    constructor
    · intro hm; exact Or.inr hm
    · rintro (⟨h1, _⟩ | h2)
      · exact absurd h1 h
      · exact h2

section Bridge

variable {key : Team → ℤ} {t : Team} {run rest : List Team}

lemma maxRun_head_of_ne_nil
    (hrun : ∀ u ∈ run, key u = key t)
    (hb : rest = [] ∨ ∃ v vs, rest = v :: vs ∧ key v ≠ key t)
    (hne : run ≠ []) :
    IsMaxRun key (t :: (run ++ rest)) 0 run.length := by
  refine ⟨List.length_pos.mpr hne,
    by simp only [List.length_cons, List.length_append]; omega, ?_, Or.inl rfl, ?_⟩
  · intro i h0 hi
    rw [keyAt_run_const key t run rest hrun i hi,
      keyAt_run_const key t run rest hrun 0 (by omega)]
  · rcases hb with hnil | ⟨v, vs, hvs, hnkey⟩
    · subst hnil
      left
      simp
    · subst hvs
      right
      have h1 : keyAt key (t :: (run ++ v :: vs)) (run.length + 1) = some (key v) := by
        simpa [keyAt] using keyAt_shift key t run (v :: vs) 0
      have h2 : keyAt key (t :: (run ++ v :: vs)) run.length = some (key t) :=
        keyAt_run_const key t run (v :: vs) hrun run.length le_rfl
      rw [h1, h2]
      intro heq
      exact hnkey (Option.some.inj heq)

lemma maxRun_head_eq
    (hrun : ∀ u ∈ run, key u = key t)
    (hb : rest = [] ∨ ∃ v vs, rest = v :: vs ∧ key v ≠ key t)
    (b : ℕ) (h : IsMaxRun key (t :: (run ++ rest)) 0 b) :
    run ≠ [] ∧ b = run.length := by
  obtain ⟨hlt, hblen, hwithin, _, hright⟩ := h
  have hlen : (t :: (run ++ rest)).length = run.length + rest.length + 1 := by
    simp
  rw [hlen] at hblen
  have hble : b ≤ run.length := by
    by_contra hgt
    push_neg at hgt
    have hrest : rest ≠ [] := by
      intro hnil
      subst hnil
      simp at hblen
      omega
    rcases hb with hnil | ⟨v, vs, hvs, hnkey⟩
    · exact hrest hnil
    · subst hvs
      have hwit := hwithin (run.length + 1) (by omega) (by omega)
      have h1 : keyAt key (t :: (run ++ v :: vs)) (run.length + 1) = some (key v) := by
        simpa [keyAt] using keyAt_shift key t run (v :: vs) 0
      have h0 : keyAt key (t :: (run ++ v :: vs)) 0 = some (key t) :=
        keyAt_run_const key t run (v :: vs) hrun 0 (by omega)
      rw [h1, h0] at hwit
      exact hnkey (Option.some.inj hwit)
  have hbeq : b = run.length := by
    by_contra hne2
    have hblt : b < run.length := by omega
    rcases hright with heq | hne3
    · rw [hlen] at heq
      omega
    · apply hne3
      rw [keyAt_run_const key t run rest hrun (b + 1) (by omega),
        keyAt_run_const key t run rest hrun b (by omega)]
  refine ⟨?_, hbeq⟩
  intro hnil
  subst hnil
  simp at hbeq
  omega

lemma maxRun_shift_up
    (hrun : ∀ u ∈ run, key u = key t)
    (hb : rest = [] ∨ ∃ v vs, rest = v :: vs ∧ key v ≠ key t)
    (a b : ℕ) (h : IsMaxRun key rest a b) :
    IsMaxRun key (t :: (run ++ rest))
      (run.length + 1 + a) (run.length + 1 + b) := by
  obtain ⟨hlt, hblen, hwithin, hleft, hright⟩ := h
  refine ⟨by omega, by simp; omega, ?_, ?_, ?_⟩
  · intro i h0 hi
    obtain ⟨j, rfl⟩ : ∃ j, i = run.length + 1 + j :=
      ⟨i - (run.length + 1), by omega⟩
    rw [keyAt_shift, keyAt_shift]
    exact hwithin j (by omega) (by omega)
  · right
    rcases Nat.eq_zero_or_pos a with ha0 | hapos
    · subst ha0
      have e1 : run.length + 1 + 0 - 1 = run.length := by omega
      rw [e1]
      rcases hb with hnil | ⟨v, vs, hvs, hnkey⟩
      · subst hnil
        simp at hblen
      · subst hvs
        have h1 : keyAt key (t :: (run ++ v :: vs)) (run.length + 1 + 0) =
            some (key v) := by
          simpa [keyAt] using keyAt_shift key t run (v :: vs) 0
        have h2 : keyAt key (t :: (run ++ v :: vs)) run.length = some (key t) :=
          keyAt_run_const key t run (v :: vs) hrun run.length le_rfl
        rw [h1, h2]
        intro heq
        exact hnkey (Option.some.inj heq).symm
    · rcases hleft with ha0' | hneq
      · omega
      · have e1 : run.length + 1 + a - 1 = run.length + 1 + (a - 1) := by omega
        rw [e1, keyAt_shift, keyAt_shift]
        exact hneq
  · rcases hright with heq | hneq
    · left
      simp
      omega
    · right
      have e1 : run.length + 1 + b + 1 = run.length + 1 + (b + 1) := by omega
      rw [e1, keyAt_shift, keyAt_shift]
      exact hneq

lemma maxRun_shift_down
    (hrun : ∀ u ∈ run, key u = key t)
    (a b : ℕ) (hapos : 0 < a)
    (h : IsMaxRun key (t :: (run ++ rest)) a b) :
    run.length + 1 ≤ a ∧
      IsMaxRun key rest (a - (run.length + 1)) (b - (run.length + 1)) := by
  obtain ⟨hlt, hblen, hwithin, hleft, hright⟩ := h
  have hlen : (t :: (run ++ rest)).length = run.length + rest.length + 1 := by
    simp
  rw [hlen] at hblen
  have has : run.length + 1 ≤ a := by
    by_contra hlt2
    push_neg at hlt2
    rcases hleft with ha0 | hneq
    · omega
    · apply hneq
      rw [keyAt_run_const key t run rest hrun (a - 1) (by omega),
        keyAt_run_const key t run rest hrun a (by omega)]
  refine ⟨has, by omega, by omega, ?_, ?_, ?_⟩
  · intro i h0 hi
    have hw := hwithin (run.length + 1 + i) (by omega) (by omega)
    rw [keyAt_shift] at hw
    rw [show a = run.length + 1 + (a - (run.length + 1)) from by omega,
      keyAt_shift] at hw
    exact hw
  · rcases Nat.eq_zero_or_pos (a - (run.length + 1)) with ha0 | hapos2
    · exact Or.inl ha0
    · right
      rcases hleft with ha0' | hneq
      · omega
      · rw [← keyAt_shift key t run rest (a - (run.length + 1) - 1),
          ← keyAt_shift key t run rest (a - (run.length + 1)),
          show run.length + 1 + (a - (run.length + 1) - 1) = a - 1 from by omega,
          show run.length + 1 + (a - (run.length + 1)) = a from by omega]
        exact hneq
  · rcases hright with heq | hneq
    · left
      rw [hlen] at heq
      omega
    · right
      rw [← keyAt_shift key t run rest (b - (run.length + 1) + 1),
        ← keyAt_shift key t run rest (b - (run.length + 1)),
        show run.length + 1 + (b - (run.length + 1) + 1) = b + 1 from by omega,
        show run.length + 1 + (b - (run.length + 1)) = b from by omega]
      exact hneq

end Bridge

lemma take_head_chunk (t : Team) (run rest : List Team) :
    (((t :: (run ++ rest)).drop 0).take (run.length + 1 - 0)) = t :: run := by
  rw [List.drop_zero, Nat.sub_zero, List.take_succ_cons, List.take_left']
  rfl

lemma slice_shift (t : Team) (run rest : List Team) (a b : ℕ) :
    ((t :: (run ++ rest)).drop (run.length + 1 + a)).take
        ((run.length + 1 + b) + 1 - (run.length + 1 + a)) =
      (rest.drop a).take (b + 1 - a) := by
  have h1 : (t :: (run ++ rest)).drop (run.length + 1 + a) = rest.drop a := by
    rw [show t :: (run ++ rest) = (t :: run) ++ rest from rfl, ← List.drop_drop,
      List.drop_left' (by simp)]
  rw [h1, show (run.length + 1 + b) + 1 - (run.length + 1 + a) = b + 1 - a from
    by omega]

/-- The ties extracted from the chunk decomposition of `ts` (enumerated
from offset `n`) are exactly the maximal contiguous runs of equal key of
length at least 2, with the run's position span (offset by `n`) and its
teams'  indices. -/
lemma chunksSpec_ties (key : Team → ℤ) :
    ∀ (n : ℕ) (ts : List Team) (cs : List (List (ℕ × Team))),
      ChunksSpec key n ts cs →
      ∀ r, r ∈ tiesOfChunks cs ↔
        ∃ a b, IsMaxRun key ts a b ∧
          r = { start_index := n + a, end_index := n + b,
                teams := ((ts.drop a).take (b + 1 - a)).map Team.index } := by
  intro n ts cs h
  induction h with
  | nil n =>
    intro r
    simp only [tiesOfChunks, List.filter_nil, List.map_nil, List.not_mem_nil,
      false_iff]
    rintro ⟨a, b, ⟨hab, hblen, _⟩, _⟩
    simp only [List.length_nil] at hblen
    omega
  | cons n t run rest cs hrun hb hrec IH =>
    intro r
    rw [mem_tiesOfChunks_cons]
    constructor
    · rintro (⟨hlen, hr⟩ | hmem)
      · have hne : run ≠ [] := by
          intro hnil
          subst hnil
          simp at hlen
        refine ⟨0, run.length, maxRun_head_of_ne_nil hrun hb hne, ?_⟩
        rw [hr, listMin_enumFrom, listMax_enumFrom, tieTeams_enumFrom,
          take_head_chunk]
        rw [Nat.add_zero]
      · obtain ⟨a, b, hmr, hr⟩ := (IH r).mp hmem
        refine ⟨run.length + 1 + a, run.length + 1 + b,
          maxRun_shift_up hrun hb a b hmr, ?_⟩
        rw [hr, slice_shift]
        have e1 : n + (run.length + 1) + a = n + (run.length + 1 + a) := by omega
        have e2 : n + (run.length + 1) + b = n + (run.length + 1 + b) := by omega
        rw [e1, e2]
    · rintro ⟨a, b, hmr, hr⟩
      rcases Nat.eq_zero_or_pos a with ha0 | hapos
      · subst ha0
        obtain ⟨hne, hbeq⟩ := maxRun_head_eq hrun hb b hmr
        subst hbeq
        left
        constructor
        · rw [List.enumFrom_length]
          have := List.length_pos.mpr hne
          simp only [List.length_cons]
          omega
        · rw [hr, listMin_enumFrom, listMax_enumFrom, tieTeams_enumFrom,
            take_head_chunk, Nat.add_zero]
      · right
        obtain ⟨has, hmr'⟩ := maxRun_shift_down hrun a b hapos hmr
        refine (IH r).mpr ⟨a - (run.length + 1), b - (run.length + 1), hmr', ?_⟩
        rw [hr]
        have hba : run.length + 1 ≤ b := by
          obtain ⟨hab, _, _, _, _⟩ := hmr
          omega
        have e1 : a = run.length + 1 + (a - (run.length + 1)) := by omega
        have e2 : b = run.length + 1 + (b - (run.length + 1)) := by omega
        rw [e1, e2, slice_shift]
        have e3 : n + (run.length + 1 + (a - (run.length + 1))) =
            n + (run.length + 1) + (a - (run.length + 1)) := by omega
        have e4 : n + (run.length + 1 + (b - (run.length + 1))) =
            n + (run.length + 1) + (b - (run.length + 1)) := by omega
        rw [e3, e4]
        simp only [Nat.add_sub_cancel_left]

/-- C6: tie identification returns exactly the maximal contiguous runs
of equal win count of length ≥ 2, each with its span indices and the
teams occupying that span; in particular the two concrete examples from
the claim. -/
theorem claim_C6_identify_ties :
    (∀ (teams : List Team) (w : List (ℕ × ℤ)),
      sortedByWins w teams = true →
      ∀ r, r ∈ identify_tied_teams teams w ↔
        ∃ s e, IsMaxRun (fun u => getWins w u.index) teams s e ∧
          r = { start_index := s, end_index := e,
                teams := ((teams.drop s).take (e + 1 - s)).map Team.index }) ∧
    identify_tied_teams
        [⟨10, false⟩, ⟨12, false⟩, ⟨13, false⟩, ⟨11, false⟩]
        [(10, 3), (12, 2), (13, 2), (11, 1)] =
      [{ teams := [12, 13], start_index := 1, end_index := 2 }] ∧
    identify_tied_teams
        [⟨10, false⟩, ⟨12, false⟩, ⟨13, false⟩, ⟨11, false⟩]
        [(10, 3), (12, 3), (13, 1), (11, 1)] =
      [{ teams := [10, 12], start_index := 0, end_index := 1 },
       { teams := [13, 11], start_index := 2, end_index := 3 }] := by
  refine ⟨?_, by decide, by decide⟩
  intro teams w _ r
  have h := chunksSpec_ties (fun u => getWins w u.index) 0 teams
    (chunkBy (fun u => getWins w u.index) teams.enum)
    (chunkBy_spec (fun u => getWins w u.index) teams 0) r
  rw [identify_eq_tiesOfChunks]
  simpa using h

theorem claim_C6_witness :
    sortedByWins [(10, 3), (12, 2), (13, 2), (11, 1)]
        [⟨10, false⟩, ⟨12, false⟩, ⟨13, false⟩, ⟨11, false⟩] = true ∧
    ({ teams := [12, 13], start_index := 1, end_index := 2 } ∈
        identify_tied_teams [⟨10, false⟩, ⟨12, false⟩, ⟨13, false⟩, ⟨11, false⟩]
          [(10, 3), (12, 2), (13, 2), (11, 1)] ↔
      ∃ s e, IsMaxRun
          (fun u => getWins [(10, 3), (12, 2), (13, 2), (11, 1)] u.index)
          [⟨10, false⟩, ⟨12, false⟩, ⟨13, false⟩, ⟨11, false⟩] s e ∧
        ({ teams := [12, 13], start_index := 1, end_index := 2 } : TiedTeams) =
          { start_index := s, end_index := e,
            teams :=
              ((([⟨10, false⟩, ⟨12, false⟩, ⟨13, false⟩,
                  (⟨11, false⟩ : Team)].drop s).take (e + 1 - s)).map
                Team.index) }) :=
  ⟨by decide, claim_C6_identify_ties.1 _ _ (by decide) _⟩

/-- The spans recorded by `identify_tied_teams`, as used by
`GroupStage::tiebreak`. -/
def tieSpans (teams : List Team) (w : List (ℕ × ℤ)) : List (ℕ × ℕ) :=
  (identify_tied_teams teams w).map (fun r => (r.start_index, r.end_index))

lemma tieSpans_bounds (teams : List Team) (w : List (ℕ × ℤ)) :
    ∀ p ∈ tieSpans teams w, p.1 < p.2 ∧ p.2 < teams.length := by
  intro p hp
  obtain ⟨r, hr, rfl⟩ := List.mem_map.mp hp
  rw [identify_eq_tiesOfChunks] at hr
  obtain ⟨a, b, hmr, hre⟩ :=
    (chunksSpec_ties (fun u => getWins w u.index) 0 teams _
      (chunkBy_spec (fun u => getWins w u.index) teams 0) r).mp hr
  obtain ⟨h1, h2, _⟩ := hmr
  rw [hre]
  simpa using ⟨h1, h2⟩

/-! ### Win-count bookkeeping for `GroupStage::run` -/

/-- Sum of all recorded win counts. -/
def sumWins (w : List (ℕ × ℤ)) : ℤ := (w.map Prod.snd).sum

/-- Number of entries with key `k`. -/
def countKey (k : ℕ) (w : List (ℕ × ℤ)) : ℕ := (w.map Prod.fst).count k

lemma bumpWin_keys (idx : ℕ) (w : List (ℕ × ℤ)) :
    (bumpWin idx w).map Prod.fst = w.map Prod.fst := by
  induction w with
  | nil => rfl
  | cons e w ih =>
    show ((if e.1 = idx then (e.1, e.2 + 1) else e) :: bumpWin idx w).map Prod.fst = _
    rw [List.map_cons, List.map_cons, ih]
    split_ifs <;> rfl

lemma getWins_cons (e : ℕ × ℤ) (w : List (ℕ × ℤ)) (k : ℕ) :
    getWins (e :: w) k = (if e.1 = k then e.2 else 0) + getWins w k := by
  rw [getWins, getWins, List.filter_cons]
  by_cases h : e.1 = k
  · simp [h]
  · simp [h]

lemma countKey_cons (k : ℕ) (e : ℕ × ℤ) (w : List (ℕ × ℤ)) :
    countKey k (e :: w) = (if e.1 = k then 1 else 0) + countKey k w := by
  rw [countKey, countKey, List.map_cons]
  by_cases h : e.1 = k
  · rw [h, List.count_cons_self, if_pos rfl]
    omega
  · rw [List.count_cons_of_ne (by omega), if_neg h]
    omega

lemma getWins_bump (idx : ℕ) (w : List (ℕ × ℤ)) (k : ℕ) :
    getWins (bumpWin idx w) k =
      getWins w k + if k = idx then (countKey k w : ℤ) else 0 := by
  induction w with
  | nil =>
    simp [bumpWin, getWins, countKey]
  | cons e w ih =>
    have hstep : bumpWin idx (e :: w) =
        (if e.1 = idx then (e.1, e.2 + 1) else e) :: bumpWin idx w := rfl
    rw [hstep, getWins_cons, ih, getWins_cons, countKey_cons]
    by_cases h1 : e.1 = idx
    · rw [if_pos h1]
      by_cases h2 : k = idx
      · rw [if_pos h2, if_pos h2, if_pos (by omega : e.1 = k),
          if_pos (by omega : e.1 = k), if_pos (by omega : e.1 = k)]
        push_cast
        ring
      · rw [if_neg h2, if_neg h2, if_neg (by omega : ¬e.1 = k),
          if_neg (by omega : ¬e.1 = k)]
        ring
    · rw [if_neg h1]
      by_cases h2 : k = idx
      · have h3 : ¬e.1 = k := by omega
        rw [if_pos h2, if_pos h2, if_neg h3, if_neg h3]
        push_cast
        ring
      · rw [if_neg h2, if_neg h2]
        ring

lemma sumWins_cons (e : ℕ × ℤ) (w : List (ℕ × ℤ)) :
    sumWins (e :: w) = e.2 + sumWins w := by
  rw [sumWins, sumWins, List.map_cons, List.sum_cons]

lemma sumWins_bump (idx : ℕ) (w : List (ℕ × ℤ)) :
    sumWins (bumpWin idx w) = sumWins w + (countKey idx w : ℤ) := by
  induction w with
  | nil => simp [bumpWin, sumWins, countKey]
  | cons e w ih =>
    have hstep : bumpWin idx (e :: w) =
        (if e.1 = idx then (e.1, e.2 + 1) else e) :: bumpWin idx w := rfl
    rw [hstep, sumWins_cons, ih, sumWins_cons, countKey_cons]
    by_cases h : e.1 = idx
    · rw [if_pos h, if_pos h]
      push_cast
      ring
    · rw [if_neg h, if_neg h]
      ring

lemma playSeries_keys (i1 i2 : ℕ) (draws : ℕ → Bool) :
    ∀ (g c : ℕ) (w : List (ℕ × ℤ)),
      ((playSeries i1 i2 draws g c w).1).map Prod.fst = w.map Prod.fst := by
  intro g
  induction g with
  | zero => intro c w; rfl
  | succ g ih =>
    intro c w
    show ((playSeries i1 i2 draws g (c + 1)
      (if draws c then bumpWin i1 w else bumpWin i2 w)).1).map Prod.fst = _
    rw [ih]
    split_ifs <;> rw [bumpWin_keys]

lemma countKey_eq_of_keys_eq {w w' : List (ℕ × ℤ)}
    (h : w.map Prod.fst = w'.map Prod.fst) (k : ℕ) :
    countKey k w = countKey k w' := by
  rw [countKey, countKey, h]

lemma playSeries_sum (i1 i2 : ℕ) (draws : ℕ → Bool) :
    ∀ (g c : ℕ) (w : List (ℕ × ℤ)),
      countKey i1 w = 1 → countKey i2 w = 1 →
      sumWins ((playSeries i1 i2 draws g c w).1) = sumWins w + g := by
  intro g
  induction g with
  | zero => intro c w _ _; simp [playSeries]
  | succ g ih =>
    intro c w h1 h2
    show sumWins ((playSeries i1 i2 draws g (c + 1)
      (if draws c then bumpWin i1 w else bumpWin i2 w)).1) = _
    by_cases hd : draws c
    · rw [if_pos hd,
        ih (c + 1) (bumpWin i1 w)
          (by rw [countKey_eq_of_keys_eq (bumpWin_keys i1 w) i1]; exact h1)
          (by rw [countKey_eq_of_keys_eq (bumpWin_keys i1 w) i2]; exact h2),
        sumWins_bump, h1]
      push_cast
      ring
    · rw [if_neg hd,
        ih (c + 1) (bumpWin i2 w)
          (by rw [countKey_eq_of_keys_eq (bumpWin_keys i2 w) i1]; exact h1)
          (by rw [countKey_eq_of_keys_eq (bumpWin_keys i2 w) i2]; exact h2),
        sumWins_bump, h2]
      push_cast
      ring

lemma countKey_nonneg (k : ℕ) (w : List (ℕ × ℤ)) : (0 : ℤ) ≤ (countKey k w : ℤ) :=
  Int.ofNat_nonneg _

lemma playSeries_getWins_of_ne (i1 i2 : ℕ) (draws : ℕ → Bool) :
    ∀ (g c : ℕ) (w : List (ℕ × ℤ)) (k : ℕ), k ≠ i1 → k ≠ i2 →
      getWins ((playSeries i1 i2 draws g c w).1) k = getWins w k := by
  intro g
  induction g with
  | zero => intro c w k _ _; rfl
  | succ g ih =>
    intro c w k h1 h2
    show getWins ((playSeries i1 i2 draws g (c + 1)
      (if draws c then bumpWin i1 w else bumpWin i2 w)).1) k = _
    rw [ih (c + 1) _ k h1 h2]
    split_ifs <;> rw [getWins_bump] <;> simp [h1, h2]

lemma playSeries_getWins_ge (i1 i2 : ℕ) (draws : ℕ → Bool) :
    ∀ (g c : ℕ) (w : List (ℕ × ℤ)) (k : ℕ),
      getWins w k ≤ getWins ((playSeries i1 i2 draws g c w).1) k := by
  intro g
  induction g with
  | zero => intro c w k; exact le_rfl
  | succ g ih =>
    intro c w k
    refine le_trans ?_ (ih (c + 1) (if draws c then bumpWin i1 w else bumpWin i2 w) k)
    split_ifs <;> rw [getWins_bump] <;> split_ifs <;>
      simp [countKey_nonneg]

lemma playSeries_getWins_le (i1 i2 : ℕ) (draws : ℕ → Bool) :
    ∀ (g c : ℕ) (w : List (ℕ × ℤ)) (k : ℕ),
      getWins ((playSeries i1 i2 draws g c w).1) k ≤
        getWins w k + ((g * countKey k w : ℕ) : ℤ) := by
  intro g
  induction g with
  | zero => intro c w k; simp [playSeries]
  | succ g ih =>
    intro c w k
    have hkeys : ∀ w' : List (ℕ × ℤ), w'.map Prod.fst = w.map Prod.fst →
        countKey k w' = countKey k w := fun w' h => countKey_eq_of_keys_eq h k
    show getWins ((playSeries i1 i2 draws g (c + 1)
      (if draws c then bumpWin i1 w else bumpWin i2 w)).1) k ≤ _
    set w1 := if draws c then bumpWin i1 w else bumpWin i2 w with hw1
    have hck : countKey k w1 = countKey k w := by
      rw [hw1]
      split_ifs <;> exact hkeys _ (bumpWin_keys _ w)
    have hstep : getWins w1 k ≤ getWins w k + (countKey k w : ℤ) := by
      rw [hw1]
      split_ifs <;> rw [getWins_bump] <;> split_ifs <;>
        simp [countKey_nonneg]
    calc getWins ((playSeries i1 i2 draws g (c + 1) w1).1) k
        ≤ getWins w1 k + ((g * countKey k w1 : ℕ) : ℤ) := ih (c + 1) w1 k
      _ ≤ (getWins w k + (countKey k w : ℤ)) + ((g * countKey k w : ℕ) : ℤ) := by
          rw [hck]
          exact add_le_add_right hstep _
      _ = getWins w k + (((g + 1) * countKey k w : ℕ) : ℤ) := by
          push_cast
          ring

/-- Number of teams in `l` whose index is `k`. -/
def cntIdx (k : ℕ) (l : List Team) : ℕ :=
  l.countP (fun u => decide (u.index = k))

/-- Number of unordered pairs of the pairwise loop in which the team
with index `k` participates. -/
def invCount (k : ℕ) : List Team → ℕ
  | [] => 0
  | t :: r => (if k = t.index then r.length else cntIdx k r) + invCount k r

/-- Number of unordered pairs played by the pairwise loop. -/
def pairsCount : List Team → ℕ
  | [] => 0
  | _ :: r => r.length + pairsCount r

lemma playOpponents_keys (g : ℕ) (draws : ℕ → Bool) (t : Team) :
    ∀ (os : List Team) (c : ℕ) (w : List (ℕ × ℤ)),
      ((playOpponents g draws t os c w).1).map Prod.fst = w.map Prod.fst := by
  intro os
  induction os with
  | nil => intro c w; rfl
  | cons u os ih =>
    intro c w
    show ((playOpponents g draws t os _ _).1).map Prod.fst = _
    rw [ih, playSeries_keys]

lemma playAllPairs_keys (g : ℕ) (draws : ℕ → Bool) :
    ∀ (l : List Team) (c : ℕ) (w : List (ℕ × ℤ)),
      ((playAllPairs g draws l c w).1).map Prod.fst = w.map Prod.fst := by
  intro l
  induction l with
  | nil => intro c w; rfl
  | cons t r ih =>
    intro c w
    show ((playAllPairs g draws r _ _).1).map Prod.fst = _
    rw [ih, playOpponents_keys]

lemma playOpponents_getWins_ge (g : ℕ) (draws : ℕ → Bool) (t : Team) :
    ∀ (os : List Team) (c : ℕ) (w : List (ℕ × ℤ)) (k : ℕ),
      getWins w k ≤ getWins ((playOpponents g draws t os c w).1) k := by
  intro os
  induction os with
  | nil => intro c w k; exact le_rfl
  | cons u os ih =>
    intro c w k
    exact le_trans (playSeries_getWins_ge t.index u.index draws g c w k)
      (ih _ _ k)

lemma playAllPairs_getWins_ge (g : ℕ) (draws : ℕ → Bool) :
    ∀ (l : List Team) (c : ℕ) (w : List (ℕ × ℤ)) (k : ℕ),
      getWins w k ≤ getWins ((playAllPairs g draws l c w).1) k := by
  intro l
  induction l with
  | nil => intro c w k; exact le_rfl
  | cons t r ih =>
    intro c w k
    exact le_trans (playOpponents_getWins_ge g draws t r c w k) (ih _ _ k)

lemma cntIdx_cons (k : ℕ) (u : Team) (os : List Team) :
    cntIdx k (u :: os) = (if u.index = k then 1 else 0) + cntIdx k os := by
  rw [cntIdx, cntIdx, List.countP_cons]
  by_cases h : u.index = k
  · simp [h]
    omega
  · simp [h]

lemma playOpponents_getWins_le (g : ℕ) (draws : ℕ → Bool) (t : Team) :
    ∀ (os : List Team) (c : ℕ) (w : List (ℕ × ℤ)) (k : ℕ),
      getWins ((playOpponents g draws t os c w).1) k ≤
        getWins w k + ((g * countKey k w *
          (if k = t.index then os.length else cntIdx k os) : ℕ) : ℤ) := by
  intro os
  induction os with
  | nil =>
    intro c w k
    have h0 : (if k = t.index then ([] : List Team).length else cntIdx k []) = 0 := by
      split_ifs <;> rfl
    show getWins w k ≤ getWins w k + ((g * countKey k w *
      (if k = t.index then ([] : List Team).length else cntIdx k []) : ℕ) : ℤ)
    rw [h0, Nat.mul_zero]
    simp
  | cons u os ih =>
    intro c w k
    show getWins ((playOpponents g draws t os _ _).1) k ≤ _
    set w1 := (playSeries t.index u.index draws g c w).1 with hw1
    have hck : countKey k w1 = countKey k w :=
      countKey_eq_of_keys_eq (playSeries_keys t.index u.index draws g c w) k
    have hrec := ih (playSeries t.index u.index draws g c w).2 w1 k
    rw [hck] at hrec
    by_cases hinv : k = t.index ∨ k = u.index
    · have hstep : getWins w1 k ≤ getWins w k + ((g * countKey k w : ℕ) : ℤ) :=
        playSeries_getWins_le t.index u.index draws g c w k
      have hhead : (if k = t.index then (u :: os).length else cntIdx k (u :: os)) =
          (if k = t.index then os.length else cntIdx k os) + 1 := by
        by_cases h1 : k = t.index
        · simp [h1]
        · rcases hinv with h2 | h2
          · exact absurd h2 h1
          · rw [if_neg h1, if_neg h1, cntIdx_cons, if_pos h2.symm]
            omega
      calc getWins ((playOpponents g draws t os _ w1).1) k
          ≤ getWins w1 k + ((g * countKey k w *
              (if k = t.index then os.length else cntIdx k os) : ℕ) : ℤ) := hrec
        _ ≤ getWins w k + ((g * countKey k w : ℕ) : ℤ) + ((g * countKey k w *
              (if k = t.index then os.length else cntIdx k os) : ℕ) : ℤ) :=
            add_le_add_right hstep _
        _ = getWins w k + ((g * countKey k w *
              ((if k = t.index then os.length else cntIdx k os) + 1) : ℕ) : ℤ) := by
            push_cast
            ring
        _ = _ := by rw [hhead]
    · push_neg at hinv
      have hstep : getWins w1 k = getWins w k :=
        playSeries_getWins_of_ne t.index u.index draws g c w k hinv.1 hinv.2
      have hhead : (if k = t.index then (u :: os).length else cntIdx k (u :: os)) =
          (if k = t.index then os.length else cntIdx k os) := by
        rw [if_neg hinv.1, if_neg hinv.1, cntIdx_cons,
          if_neg (fun h => hinv.2 h.symm)]
        omega
      rw [hhead]
      rw [hstep] at hrec
      exact hrec

lemma playAllPairs_getWins_le (g : ℕ) (draws : ℕ → Bool) :
    ∀ (l : List Team) (c : ℕ) (w : List (ℕ × ℤ)) (k : ℕ),
      getWins ((playAllPairs g draws l c w).1) k ≤
        getWins w k + ((g * countKey k w * invCount k l : ℕ) : ℤ) := by
  intro l
  induction l with
  | nil =>
    intro c w k
    show getWins w k ≤ getWins w k + ((g * countKey k w * invCount k [] : ℕ) : ℤ)
    rw [invCount, Nat.mul_zero]
    simp
  | cons t r ih =>
    intro c w k
    show getWins ((playAllPairs g draws r _ _).1) k ≤ _
    set w1 := (playOpponents g draws t r c w).1 with hw1
    have hck : countKey k w1 = countKey k w :=
      countKey_eq_of_keys_eq (playOpponents_keys g draws t r c w) k
    have hrec := ih (playOpponents g draws t r c w).2 w1 k
    rw [hck] at hrec
    have hstep := playOpponents_getWins_le g draws t r c w k
    calc getWins ((playAllPairs g draws r _ w1).1) k
        ≤ getWins w1 k + ((g * countKey k w * invCount k r : ℕ) : ℤ) := hrec
      _ ≤ (getWins w k + ((g * countKey k w *
            (if k = t.index then r.length else cntIdx k r) : ℕ) : ℤ)) +
            ((g * countKey k w * invCount k r : ℕ) : ℤ) :=
          add_le_add_right hstep _
      _ = getWins w k + ((g * countKey k w * invCount k (t :: r) : ℕ) : ℤ) := by
          rw [invCount]
          push_cast
          ring

lemma playOpponents_sum (g : ℕ) (draws : ℕ → Bool) (t : Team) :
    ∀ (os : List Team) (c : ℕ) (w : List (ℕ × ℤ)),
      countKey t.index w = 1 → (∀ u ∈ os, countKey u.index w = 1) →
      sumWins ((playOpponents g draws t os c w).1) =
        sumWins w + ((g * os.length : ℕ) : ℤ) := by
  intro os
  induction os with
  | nil =>
    intro c w _ _
    show sumWins w = sumWins w + ((g * 0 : ℕ) : ℤ)
    simp
  | cons u os ih =>
    intro c w ht hos
    show sumWins ((playOpponents g draws t os _ _).1) = _
    set w1 := (playSeries t.index u.index draws g c w).1 with hw1
    have hkeys := playSeries_keys t.index u.index draws g c w
    have ht1 : countKey t.index w1 = 1 := by
      rw [countKey_eq_of_keys_eq hkeys]
      exact ht
    have hos1 : ∀ v ∈ os, countKey v.index w1 = 1 := by
      intro v hv
      rw [countKey_eq_of_keys_eq hkeys]
      exact hos v (by simp [hv])
    have hsum1 : sumWins w1 = sumWins w + g :=
      playSeries_sum t.index u.index draws g c w ht (hos u (by simp))
    rw [ih _ w1 ht1 hos1, hsum1]
    simp only [List.length_cons]
    push_cast
    ring

lemma playAllPairs_sum (g : ℕ) (draws : ℕ → Bool) :
    ∀ (l : List Team) (c : ℕ) (w : List (ℕ × ℤ)),
      (∀ u ∈ l, countKey u.index w = 1) →
      sumWins ((playAllPairs g draws l c w).1) =
        sumWins w + ((g * pairsCount l : ℕ) : ℤ) := by
  intro l
  induction l with
  | nil =>
    intro c w _
    show sumWins w = sumWins w + ((g * pairsCount [] : ℕ) : ℤ)
    rw [pairsCount]
    simp
  | cons t r ih =>
    intro c w hl
    show sumWins ((playAllPairs g draws r _ _).1) = _
    set w1 := (playOpponents g draws t r c w).1 with hw1
    have hkeys := playOpponents_keys g draws t r c w
    have hr1 : ∀ u ∈ r, countKey u.index w1 = 1 := by
      intro u hu
      rw [countKey_eq_of_keys_eq hkeys]
      exact hl u (by simp [hu])
    have hsum1 : sumWins w1 = sumWins w + ((g * r.length : ℕ) : ℤ) :=
      playOpponents_sum g draws t r c w (hl t (by simp))
        (fun u hu => hl u (by simp [hu]))
    rw [ih _ w1 hr1, hsum1, pairsCount]
    push_cast
    ring

lemma two_mul_pairsCount : ∀ l : List Team, 2 * pairsCount l = l.length * (l.length - 1) := by
  intro l
  induction l with
  | nil => rfl
  | cons t r ih =>
    rw [pairsCount, List.length_cons, Nat.add_sub_cancel]
    have h2 : 2 * (r.length + pairsCount r) = 2 * r.length + 2 * pairsCount r := by
      ring
    rw [h2, ih]
    rcases hL : r.length with _ | L
    · simp
    · rw [Nat.add_sub_cancel]
      ring

lemma pairsCount_eq (l : List Team) :
    pairsCount l = l.length * (l.length - 1) / 2 := by
  have h := two_mul_pairsCount l
  omega

lemma cntIdx_eq_zero (k : ℕ) (l : List Team) (h : k ∉ l.map Team.index) :
    cntIdx k l = 0 := by
  rw [cntIdx, List.countP_eq_zero]
  intro u hu
  simp only [decide_eq_true_eq]
  intro he
  exact h (List.mem_map.mpr ⟨u, hu, he⟩)

lemma invCount_eq_zero (k : ℕ) :
    ∀ l : List Team, k ∉ l.map Team.index → invCount k l = 0 := by
  intro l
  induction l with
  | nil => intro _; rfl
  | cons t r ih =>
    intro h
    simp only [List.map_cons, List.mem_cons, not_or] at h
    rw [invCount, if_neg h.1, cntIdx_eq_zero k r h.2, ih h.2]

lemma cntIdx_le_one (k : ℕ) :
    ∀ l : List Team, (l.map Team.index).Nodup → cntIdx k l ≤ 1 := by
  intro l
  induction l with
  | nil => intro _; exact Nat.zero_le 1
  | cons u r ih =>
    intro hnd
    simp only [List.map_cons, List.nodup_cons] at hnd
    rw [cntIdx_cons]
    by_cases h : u.index = k
    · rw [if_pos h, cntIdx_eq_zero k r (by rw [← h]; exact hnd.1)]
    · rw [if_neg h]
      simpa using ih hnd.2

lemma invCount_le (k : ℕ) :
    ∀ l : List Team, (l.map Team.index).Nodup → invCount k l ≤ l.length - 1 := by
  intro l
  induction l with
  | nil => intro _; exact Nat.le_refl 0
  | cons t r ih =>
    intro hnd
    simp only [List.map_cons, List.nodup_cons] at hnd
    obtain ⟨hnotin, hndr⟩ := hnd
    rw [invCount, List.length_cons, Nat.add_sub_cancel]
    by_cases h1 : k = t.index
    · rw [if_pos h1]
      have hz : invCount k r = 0 := invCount_eq_zero k r (by rw [h1]; exact hnotin)
      omega
    · rw [if_neg h1]
      by_cases h2 : k ∈ r.map Team.index
      · have hc1 : cntIdx k r ≤ 1 := cntIdx_le_one k r hndr
        have hr1 : 1 ≤ r.length := by
          rcases r with _ | ⟨a, r2⟩
          · simp at h2
          · simp
        have hiv := ih hndr
        omega
      · rw [cntIdx_eq_zero k r h2, invCount_eq_zero k r h2]
        omega

lemma getWins_eq_zero_of_not_mem (k : ℕ) :
    ∀ w : List (ℕ × ℤ), k ∉ w.map Prod.fst → getWins w k = 0 := by
  intro w
  induction w with
  | nil => intro _; rfl
  | cons e w ih =>
    intro h
    simp only [List.map_cons, List.mem_cons, not_or] at h
    rw [getWins_cons, if_neg (fun he => h.1 he.symm), ih h.2]
    ring

lemma getWins_eq_of_mem :
    ∀ (w : List (ℕ × ℤ)), (w.map Prod.fst).Nodup →
      ∀ e ∈ w, getWins w e.1 = e.2 := by
  intro w
  induction w with
  | nil => intro _ e he; cases he
  | cons a w ih =>
    intro hnd e he
    simp only [List.map_cons, List.nodup_cons] at hnd
    obtain ⟨hnotin, hndw⟩ := hnd
    rcases List.mem_cons.mp he with rfl | hmem
    · rw [getWins_cons, if_pos rfl, getWins_eq_zero_of_not_mem e.1 w hnotin,
        add_zero]
    · have hne : ¬a.1 = e.1 := by
        intro hae
        exact hnotin (hae ▸ List.mem_map_of_mem Prod.fst hmem)
      rw [getWins_cons, if_neg hne, ih hndw e hmem, zero_add]

lemma init_keys (teams : List Team) :
    ((teams.map (fun t => (t.index, (0 : ℤ)))).map Prod.fst) =
      teams.map Team.index := by
  rw [List.map_map]
  rfl

lemma init_sum (teams : List Team) :
    sumWins (teams.map (fun t => (t.index, (0 : ℤ)))) = 0 := by
  rw [sumWins, List.map_map]
  have h : (Prod.snd ∘ fun t : Team => (t.index, (0 : ℤ))) = fun _ => (0 : ℤ) := rfl
  rw [h]
  induction teams with
  | nil => rfl
  | cons t r ih => simpa using ih

lemma getWins_init (teams : List Team) (k : ℕ) :
    getWins (teams.map (fun t => (t.index, (0 : ℤ)))) k = 0 := by
  induction teams with
  | nil => rfl
  | cons t r ih =>
    rw [List.map_cons, getWins_cons, ih]
    split_ifs <;> ring

/-- C10: after the pairwise game loop of `GroupStage::run` (before the
sort), the win-count map has exactly one entry per input competitor (in
input order), the counts sum to `g * m * (m-1) / 2`, and each count lies
in `[0, g*(m-1)]`. -/
theorem claim_C10_group_win_invariants (g : ℕ) (teams : List Team)
    (draws : ℕ → Bool) (hm : 2 ≤ teams.length) (hg : 1 ≤ g)
    (hnd : (teams.map Team.index).Nodup) :
    (computeWins g teams draws).map Prod.fst = teams.map Team.index ∧
    sumWins (computeWins g teams draws) =
      ((g * (teams.length * (teams.length - 1) / 2) : ℕ) : ℤ) ∧
    ∀ e ∈ computeWins g teams draws,
      0 ≤ e.2 ∧ e.2 ≤ ((g * (teams.length - 1) : ℕ) : ℤ) := by
  have hkeys : (computeWins g teams draws).map Prod.fst = teams.map Team.index := by
    rw [computeWins, playAllPairs_keys, init_keys]
  refine ⟨hkeys, ?_, ?_⟩
  · have hcnt : ∀ u ∈ teams,
        countKey u.index (teams.map (fun t => (t.index, (0 : ℤ)))) = 1 := by
      intro u hu
      rw [countKey, init_keys]
      exact List.count_eq_one_of_mem hnd (List.mem_map_of_mem _ hu)
    rw [computeWins, playAllPairs_sum g draws teams 0 _ hcnt, init_sum,
      pairsCount_eq, zero_add]
  · intro e he
    have he1 : e.1 ∈ teams.map Team.index := by
      rw [← hkeys]
      exact List.mem_map_of_mem _ he
    have hndW : ((computeWins g teams draws).map Prod.fst).Nodup := by
      rw [hkeys]
      exact hnd
    have heval : getWins (computeWins g teams draws) e.1 = e.2 :=
      getWins_eq_of_mem _ hndW e he
    have hck : countKey e.1 (teams.map (fun t => (t.index, (0 : ℤ)))) = 1 := by
      rw [countKey, init_keys]
      exact List.count_eq_one_of_mem hnd he1
    constructor
    · rw [← heval]
      calc (0 : ℤ) = getWins (teams.map (fun t => (t.index, (0 : ℤ)))) e.1 :=
            (getWins_init teams e.1).symm
        _ ≤ _ := playAllPairs_getWins_ge g draws teams 0 _ e.1
    · rw [← heval]
      have hb := playAllPairs_getWins_le g draws teams 0
        (teams.map (fun t => (t.index, (0 : ℤ)))) e.1
      rw [getWins_init, hck, zero_add] at hb
      refine le_trans hb ?_
      have hinv := invCount_le e.1 teams hnd
      have hmono : g * 1 * invCount e.1 teams ≤ g * (teams.length - 1) := by
        have : g * 1 * invCount e.1 teams = g * invCount e.1 teams := by ring
        rw [this]
        exact Nat.mul_le_mul_left g hinv
      exact_mod_cast Nat.cast_le.mpr hmono

theorem claim_C10_witness :
    2 ≤ ([⟨0, false⟩, ⟨1, false⟩] : List Team).length ∧
    1 ≤ 1 ∧
    (([⟨0, false⟩, ⟨1, false⟩] : List Team).map Team.index).Nodup ∧
    ((computeWins 1 [⟨0, false⟩, ⟨1, false⟩] (fun _ => true)).map Prod.fst =
        ([⟨0, false⟩, ⟨1, false⟩] : List Team).map Team.index ∧
      sumWins (computeWins 1 [⟨0, false⟩, ⟨1, false⟩] (fun _ => true)) =
        ((1 * (2 * (2 - 1) / 2) : ℕ) : ℤ) ∧
      ∀ e ∈ computeWins 1 [⟨0, false⟩, ⟨1, false⟩] (fun _ => true),
        0 ≤ e.2 ∧ e.2 ≤ ((1 * (2 - 1) : ℕ) : ℤ)) :=
  ⟨by decide, by decide, by decide,
    claim_C10_group_win_invariants 1 [⟨0, false⟩, ⟨1, false⟩] (fun _ => true)
      (by decide) (by decide) (by decide)⟩

/-! ### `GroupStage::run` and `GroupStage::tiebreak` as a relation

The recursion of `tiebreak` is not structurally terminating (ties can
recur forever under symmetric probabilities), so a terminating
execution is represented as a finite derivation of an inductive
relation, with the random stream abstracted as the Boolean game
outcomes `draws`. -/

/-- `input.sort_by_key(|team| -num_games_won[&team.index])`: stable
sort, ascending in the negated win count. -/
def sortRun (w : List (ℕ × ℤ)) (teams : List Team) : List Team :=
  List.insertionSort
    (fun a b => -(getWins w a.index) ≤ -(getWins w b.index)) teams

/-- The sub-slice `&mut input[s..=e]`. -/
def slice (l : List Team) (s e : ℕ) : List Team := (l.drop s).take (e + 1 - s)

/-- Writing a resolved sub-slice back in place of positions `s..=e`. -/
def splice (l : List Team) (s e : ℕ) (sub : List Team) : List Team :=
  l.take s ++ sub ++ l.drop (e + 1)

/-- `GroupStage::tiebreak`'s loop: each tie span `(s, e)` is replaced
in place by a recursive `GroupStage::run` of the sub-slice (its sort
followed by its own tiebreak), then the remaining spans are processed
on the updated list. -/
inductive TB (g : ℕ) : List (ℕ × ℕ) → List Team → List Team → Prop
  | nil (l : List Team) : TB g [] l l
  | cons (s e : ℕ) (rest : List (ℕ × ℕ)) (l sub out : List Team)
      (draws : ℕ → Bool) :
      TB g
        (tieSpans (sortRun (computeWins g (slice l s e) draws) (slice l s e))
          (computeWins g (slice l s e) draws))
        (sortRun (computeWins g (slice l s e) draws) (slice l s e)) sub →
      TB g rest (splice l s e sub) out →
      TB g ((s, e) :: rest) l out

/-- `GroupStage::run` as a relation: for some draw stream, play all
pairwise games, sort descending by win count, and resolve the
identified ties recursively. -/
def GroupRun (g : ℕ) (input out : List Team) : Prop :=
  ∃ draws : ℕ → Bool,
    TB g
      (tieSpans (sortRun (computeWins g input draws) input)
        (computeWins g input draws))
      (sortRun (computeWins g input draws) input) out

lemma decomp_slice (l : List Team) (s e : ℕ) (hse : s ≤ e)
    (he : e < l.length) :
    l = l.take s ++ slice l s e ++ l.drop (e + 1) := by
  have h2 : (l.drop s).drop (e + 1 - s) = l.drop (e + 1) := by
    rw [List.drop_drop]
    congr 1
    omega
  have h1 : slice l s e ++ l.drop (e + 1) = l.drop s := by
    rw [slice, ← h2, List.take_append_drop]
  calc l = l.take s ++ l.drop s := (List.take_append_drop s l).symm
    _ = l.take s ++ (slice l s e ++ l.drop (e + 1)) := by rw [h1]
    _ = l.take s ++ slice l s e ++ l.drop (e + 1) := by
        rw [List.append_assoc]

lemma tb_perm (g : ℕ) :
    ∀ (spans : List (ℕ × ℕ)) (l out : List Team), TB g spans l out →
      (∀ p ∈ spans, p.1 < p.2 ∧ p.2 < l.length) → out.Perm l := by
  intro spans l out h
  induction h with
  | nil l => intro _; exact List.Perm.refl l
  | cons s e rest l sub out draws hsub hrest ihsub ihrest =>
    intro hspans
    have hse := hspans (s, e) (by simp)
    have hsubperm : sub.Perm (slice l s e) := by
      have h1 := ihsub (fun p hp => tieSpans_bounds _ _ p hp)
      exact h1.trans (List.perm_insertionSort _ _)
    have hsplice : (splice l s e sub).Perm l := by
      have hmid : (l.take s ++ sub).Perm (l.take s ++ slice l s e) :=
        hsubperm.append_left (l.take s)
      have hall : (l.take s ++ sub ++ l.drop (e + 1)).Perm
          (l.take s ++ slice l s e ++ l.drop (e + 1)) :=
        hmid.append_right (l.drop (e + 1))
      rw [splice]
      exact hall.trans
        (by rw [← decomp_slice l s e (by omega) hse.2])
    have hres : ∀ p ∈ rest, p.1 < p.2 ∧ p.2 < (splice l s e sub).length := by
      intro p hp
      have hb := hspans p (by simp [hp])
      rw [hsplice.length_eq]
      exact hb
    exact (ihrest hres).trans hsplice

lemma groupRun_perm (g : ℕ) (input out : List Team) (h : GroupRun g input out) :
    out.Perm input := by
  obtain ⟨draws, htb⟩ := h
  have hperm : out.Perm (sortRun (computeWins g input draws) input) :=
    tb_perm g _ _ out htb (fun p hp => tieSpans_bounds _ _ p hp)
  exact hperm.trans (List.perm_insertionSort _ input)

/-- C2: every terminating execution of `GroupStage::run` (including its
recursive tiebreak) leaves the slice a permutation of the input: same
length, same multiset of competitors. -/
theorem claim_C2_group_run_permutation (g : ℕ) (input out : List Team)
    (hm : 2 ≤ input.length) (hg : 1 ≤ g)
    (hnd : (input.map Team.index).Nodup) (h : GroupRun g input out) :
    out.Perm input ∧ out.length = input.length := by
  have hfull : out.Perm input := groupRun_perm g input out h
  exact ⟨hfull, hfull.length_eq⟩

theorem claim_C2_witness :
    2 ≤ ([⟨0, false⟩, ⟨1, false⟩] : List Team).length ∧ (1 : ℕ) ≤ 1 ∧
    (([⟨0, false⟩, ⟨1, false⟩] : List Team).map Team.index).Nodup ∧
    GroupRun 1 [⟨0, false⟩, ⟨1, false⟩] [⟨0, false⟩, ⟨1, false⟩] ∧
    ([⟨0, false⟩, ⟨1, false⟩] : List Team).Perm [⟨0, false⟩, ⟨1, false⟩] := by
  have hX : sortRun (computeWins 1 [⟨0, false⟩, ⟨1, false⟩] (fun _ => true))
      [⟨0, false⟩, ⟨1, false⟩] = [⟨0, false⟩, ⟨1, false⟩] := by decide
  have hspans : tieSpans
      (sortRun (computeWins 1 [⟨0, false⟩, ⟨1, false⟩] (fun _ => true))
        [⟨0, false⟩, ⟨1, false⟩])
      (computeWins 1 [⟨0, false⟩, ⟨1, false⟩] (fun _ => true)) = [] := by decide
  have hrun : GroupRun 1 [⟨0, false⟩, ⟨1, false⟩] [⟨0, false⟩, ⟨1, false⟩] := by
    refine ⟨fun _ => true, ?_⟩
    rw [hspans, hX]
    exact TB.nil _
  exact ⟨by decide, le_rfl, by decide, hrun,
    (claim_C2_group_run_permutation 1 _ _ (by decide) le_rfl (by decide) hrun).1⟩

/-! ### The trial runner (`Runner::run` / `get_score_of_strong_team`) -/

/-- Embedding of `BestOfN::run` as a relation: the input must be a
pair (the `assert_eq!`); `u` is the uniform draw, and the pair is
swapped when `u` exceeds the majority probability of slot 0. -/
inductive BestOfNRun (n : ℕ) : List Team → List Team → Prop
  | mk (a b : Team) (u : ℝ) :
      BestOfNRun n [a, b]
        (if u > bestOfNTotal (a.probability_to_win_against b) n then [b, a]
         else [a, b])

/-- Dispatch of `Component::run` on the component type. -/
def typeRun : ComponentType → List Team → List Team → Prop
  | ComponentType.bestOf1 => BestOfNRun 1
  | ComponentType.bestOf3 => BestOfNRun 3
  | ComponentType.bestOf5 => BestOfNRun 5
  | ComponentType.bestOf7 => BestOfNRun 7
  | ComponentType.bestOfN n => BestOfNRun n
  | ComponentType.groupStage gs => GroupRun gs.num_games_per_series

lemma bestOfNRun_length (n : ℕ) (inp out : List Team)
    (h : BestOfNRun n inp out) : out.length = inp.length := by
  cases h with
  | mk a b u => split_ifs <;> rfl

lemma typeRun_length (ct : ComponentType) (inp out : List Team)
    (h : typeRun ct inp out) : out.length = inp.length := by
  cases ct with
  | bestOf1 => exact bestOfNRun_length 1 inp out h
  | bestOf3 => exact bestOfNRun_length 3 inp out h
  | bestOf5 => exact bestOfNRun_length 5 inp out h
  | bestOf7 => exact bestOfNRun_length 7 inp out h
  | bestOfN n => exact bestOfNRun_length n inp out h
  | groupStage gs => exact (groupRun_perm _ inp out h).length_eq

/-- Gathering a stage's input competitors by indexing the placement
table (`self.placements[team.component][team.position]`); out-of-range
lookups are modelled by a default value so that bounds can be stated
explicitly. -/
def gather (table : List (List Team)) (pls : List Placement) : List Team :=
  pls.map (fun pl => (table.getD pl.component []).getD pl.position ⟨0, false⟩)

/-- The stage-execution loop of the trial runner: each component reads
its inputs from the table and appends its outcome. -/
inductive RunSteps : List (List Team) → List (Component Placement) →
    List (List Team) → Prop
  | nil (table : List (List Team)) : RunSteps table [] table
  | cons (table : List (List Team)) (comp : Component Placement)
      (comps : List (Component Placement)) (out : List Team)
      (final : List (List Team)) :
      typeRun comp.type (gather table comp.teams) out →
      RunSteps (table ++ [out]) comps final →
      RunSteps table (comp :: comps) final

/-- The declaration-order invariant of the resolved plan: every input
slot and scoring entry with stage index `s+1` refers to a stage `s`
declared strictly earlier, with position below that stage's output
(slot) count, and every stage-index-0 position is below the raw entrant
count `m`. -/
def PlanInvariant (m : ℕ) (comps : List (Component Placement))
    (scoring : List (Placement × ℝ)) : Prop :=
  (∀ (i : ℕ) (cs : Component Placement), comps[i]? = some cs →
    ∀ pl ∈ cs.teams,
    (pl.component = 0 → pl.position < m) ∧
    (∀ s, pl.component = s + 1 →
      s < i ∧ ∃ cs2, comps[s]? = some cs2 ∧ pl.position < cs2.teams.length)) ∧
  (∀ pr ∈ scoring,
    (pr.1.component = 0 → pr.1.position < m) ∧
    (∀ s, pr.1.component = s + 1 →
      ∃ cs2, comps[s]? = some cs2 ∧ pr.1.position < cs2.teams.length))

lemma runSteps_shape :
    ∀ (table : List (List Team)) (comps : List (Component Placement))
      (final : List (List Team)), RunSteps table comps final →
      ∃ outs : List (List Team), final = table ++ outs ∧
        outs.length = comps.length ∧
        ∀ s cs, comps[s]? = some cs →
          (outs.getD s []).length = cs.teams.length := by
  intro table comps final h
  induction h with
  | nil table =>
    refine ⟨[], by simp, rfl, ?_⟩
    intro s cs hcs
    rw [List.getElem?_nil] at hcs
    cases hcs
  | cons table comp comps out final hstep hrec ih =>
    obtain ⟨outs, hfin, hlen, hget⟩ := ih
    refine ⟨out :: outs, ?_, by simp [hlen], ?_⟩
    · rw [hfin, List.append_assoc]
      rfl
    · intro s cs hcs
      cases s with
      | zero =>
        rw [List.getElem?_cons_zero] at hcs
        cases hcs
        show out.length = comp.teams.length
        rw [typeRun_length comp.type _ out hstep, gather, List.length_map]
      | succ s2 =>
        rw [List.getElem?_cons_succ] at hcs
        show (outs.getD s2 []).length = cs.teams.length
        exact hget s2 cs hcs

/-- C8: under the declaration-order invariant, a trial run never
indexes the placement table out of range: every component's input
placement refers to an already-computed table entry (index at most the
stage's own position) and lies within that entry, and every scoring
placement is in range of the final table. -/
theorem claim_C8_no_out_of_range (entrants : List Team)
    (comps : List (Component Placement)) (scoring : List (Placement × ℝ))
    (final : List (List Team))
    (hinv : PlanInvariant entrants.length comps scoring)
    (hrun : RunSteps [entrants] comps final) :
    (∀ (i : ℕ) (cs : Component Placement), comps[i]? = some cs →
      ∀ pl ∈ cs.teams,
      pl.component ≤ i ∧ pl.component < final.length ∧
        pl.position < (final.getD pl.component []).length) ∧
    (∀ pr ∈ scoring, pr.1.component < final.length ∧
      pr.1.position < (final.getD pr.1.component []).length) := by
  obtain ⟨outs, hfin, hlen, hget⟩ := runSteps_shape [entrants] comps final hrun
  have hflen : final.length = comps.length + 1 := by
    rw [hfin, List.length_append, hlen]
    simp
    omega
  have hfd0 : final.getD 0 [] = entrants := by
    rw [hfin]
    rfl
  have hfds : ∀ s, final.getD (s + 1) [] = outs.getD s [] := by
    intro s
    rw [hfin]
    rfl
  have hbound : ∀ (pl : Placement),
      (pl.component = 0 → pl.position < entrants.length) →
      (∀ s, pl.component = s + 1 →
        ∃ cs2, comps[s]? = some cs2 ∧ pl.position < cs2.teams.length) →
      (∀ s, pl.component = s + 1 → s < comps.length) →
      pl.component < final.length ∧
        pl.position < (final.getD pl.component []).length := by
    intro pl h0 hs hslt
    cases hc : pl.component with
    | zero =>
      refine ⟨by omega, ?_⟩
      rw [hfd0]
      exact h0 hc
    | succ s =>
      obtain ⟨cs2, hcs2, hpos⟩ := hs s hc
      have hslen := hget s cs2 hcs2
      refine ⟨by have := hslt s hc; omega, ?_⟩
      rw [hfds s, hslen]
      exact hpos
  constructor
  · intro i cs hcs pl hpl
    obtain ⟨h0, hs⟩ := hinv.1 i cs hcs pl hpl
    have hile : i < comps.length := by
      by_contra hge
      rw [List.getElem?_eq_none (by omega)] at hcs
      cases hcs
    have hcle : pl.component ≤ i := by
      cases hc : pl.component with
      | zero => omega
      | succ s => have := (hs s hc).1; omega
    refine ⟨hcle, ?_⟩
    exact hbound pl h0 (fun s h => (hs s h).2) (fun s h => by
      have := (hs s h).1
      omega)
  · intro pr hpr
    obtain ⟨h0, hs⟩ := hinv.2 pr hpr
    refine hbound pr.1 h0 hs ?_
    intro s h
    obtain ⟨cs2, hcs2, _⟩ := hs s h
    by_contra hge
    rw [List.getElem?_eq_none (by omega)] at hcs2
    cases hcs2

/-- Concrete raw entrants for the witness run. -/
def exEntrants : List Team := [⟨0, false⟩, ⟨1, false⟩]

/-- A single resolved best-of-1 stage fed by the two raw entrants. -/
def exComps : List (Component Placement) :=
  [⟨ComponentType.bestOf1, [⟨0, 0⟩, ⟨0, 1⟩]⟩]

/-- Scoring: one point for the winner of the stage. -/
def exScoring : List (Placement × ℝ) := [(⟨1, 0⟩, 1)]

/-- The placement table of the witness run. -/
def exFinal : List (List Team) :=
  [[⟨0, false⟩, ⟨1, false⟩], [⟨0, false⟩, ⟨1, false⟩]]

lemma exPlanInvariant : PlanInvariant exEntrants.length exComps exScoring := by
  constructor
  · intro i cs hcs pl hpl
    cases i with
    | zero =>
      rw [show exComps[0]? =
        some ⟨ComponentType.bestOf1, [⟨0, 0⟩, ⟨0, 1⟩]⟩ from rfl] at hcs
      cases hcs
      rcases List.mem_cons.mp hpl with rfl | hpl2
      · exact ⟨fun _ => by decide,
          fun s h => absurd (show (0 : ℕ) = s + 1 from h) (by omega)⟩
      · rcases List.mem_cons.mp hpl2 with rfl | hpl3
        · exact ⟨fun _ => by decide,
            fun s h => absurd (show (0 : ℕ) = s + 1 from h) (by omega)⟩
        · cases hpl3
    | succ i2 =>
      rw [show exComps[i2 + 1]? = none from by simp [exComps]] at hcs
      cases hcs
  · intro pr hpr
    rcases List.mem_cons.mp hpr with rfl | hpr2
    · refine ⟨fun h => absurd (show (1 : ℕ) = 0 from h) (by omega), ?_⟩
      intro s h
      have hs0 : s = 0 := by
        have : (1 : ℕ) = s + 1 := h
        omega
      subst hs0
      exact ⟨⟨ComponentType.bestOf1, [⟨0, 0⟩, ⟨0, 1⟩]⟩, rfl, by decide⟩
    · cases hpr2

lemma exRunSteps : RunSteps [exEntrants] exComps exFinal := by
  have hp : Team.probability_to_win_against ⟨0, false⟩ ⟨1, false⟩ = 0.5 := by
    rw [Team.probability_to_win_against]
    norm_num
  have htot : bestOfNTotal (0.5 : ℝ) 1 = 0.5 := by
    rw [bestOfNTotal]
    rw [show (1 - 1) / 2 + 1 = 1 from rfl, Finset.sum_range_one,
      binomial_distribution, show binomial 1 0 = 1 from rfl]
    norm_num
  have hout : BestOfNRun 1 [⟨0, false⟩, ⟨1, false⟩] [⟨0, false⟩, ⟨1, false⟩] := by
    have h := BestOfNRun.mk (n := 1) (⟨0, false⟩ : Team) (⟨1, false⟩ : Team) 0
    have hite : (if (0 : ℝ) > bestOfNTotal
        (Team.probability_to_win_against ⟨0, false⟩ ⟨1, false⟩) 1 then
          ([⟨1, false⟩, ⟨0, false⟩] : List Team)
        else [⟨0, false⟩, ⟨1, false⟩]) = [⟨0, false⟩, ⟨1, false⟩] := by
      rw [if_neg]
      rw [hp, htot]
      norm_num
    rw [hite] at h
    exact h
  refine RunSteps.cons [exEntrants] ⟨ComponentType.bestOf1, [⟨0, 0⟩, ⟨0, 1⟩]⟩
    [] [⟨0, false⟩, ⟨1, false⟩] exFinal ?_ ?_
  · show BestOfNRun 1 (gather [exEntrants] [⟨0, 0⟩, ⟨0, 1⟩])
      [⟨0, false⟩, ⟨1, false⟩]
    have hg : gather [exEntrants] [⟨0, 0⟩, ⟨0, 1⟩] =
        [⟨0, false⟩, ⟨1, false⟩] := rfl
    rw [hg]
    exact hout
  · exact RunSteps.nil exFinal

theorem claim_C8_witness :
    PlanInvariant exEntrants.length exComps exScoring ∧
    RunSteps [exEntrants] exComps exFinal ∧
    ((∀ (i : ℕ) (cs : Component Placement), exComps[i]? = some cs →
      ∀ pl ∈ cs.teams, pl.component ≤ i ∧ pl.component < exFinal.length ∧
        pl.position < (exFinal.getD pl.component []).length) ∧
     (∀ pr ∈ exScoring, pr.1.component < exFinal.length ∧
       pr.1.position < (exFinal.getD pr.1.component []).length)) :=
  ⟨exPlanInvariant, exRunSteps,
    claim_C8_no_out_of_range exEntrants exComps exScoring exFinal
      exPlanInvariant exRunSteps⟩

/-! ### Scoring reduction and aggregation (`runner.rs`, spec §4.7–4.8) -/

/-- Embedding of `ScoreResult` (used by `runner.rs` but declared in a
part of the repository outside the given sources).  Modelled from the
spec: the per-trial pair of accumulators `(strong_score, total_score)`,
`all_teams` being the unconditional score and `strong_team` the score
conditioned on the competitor at the placement being strong. -/
structure ScoreResult where
  all_teams : ℝ
  strong_team : ℝ

/-- Modelled from the spec: the missing `Sum` implementation for
`ScoreResult` — the pair is an associative, commutative monoid under
pointwise addition, folded with zero `(0, 0)`. -/
def sumScoreResults (l : List ScoreResult) : ScoreResult :=
  l.foldr
    (fun a b => ⟨a.all_teams + b.all_teams, a.strong_team + b.strong_team⟩)
    ⟨0, 0⟩

/-- Embedding of `Runner::get_score_result`'s scoring reduction
(`runner.rs`): for every `(placement, score)` entry, `all_teams` gets
the score unconditionally and `strong_team` gets it only if the
competitor found at that placement of the placement table is strong;
the entries are summed pointwise. -/
def get_score_result (placements : List (List Team))
    (scoring : List (Placement × ℝ)) : ScoreResult :=
  sumScoreResults (scoring.map (fun pr =>
    { all_teams := pr.2
      strong_team :=
        if ((placements.getD pr.1.component []).getD pr.1.position
            ⟨0, false⟩).strong then pr.2
        else 0 }))

lemma sumScoreResults_strong (l : List ScoreResult) :
    (sumScoreResults l).strong_team = (l.map ScoreResult.strong_team).sum := by
  induction l with
  | nil => rfl
  | cons a l ih =>
    show (⟨a.all_teams + _, a.strong_team + _⟩ : ScoreResult).strong_team = _
    rw [List.map_cons, List.sum_cons, ← ih]
    rfl

lemma sumScoreResults_all (l : List ScoreResult) :
    (sumScoreResults l).all_teams = (l.map ScoreResult.all_teams).sum := by
  induction l with
  | nil => rfl
  | cons a l ih =>
    show (⟨a.all_teams + _, a.strong_team + _⟩ : ScoreResult).all_teams = _
    rw [List.map_cons, List.sum_cons, ← ih]
    rfl

/-- Modelled from the spec: the aggregator's report (absent from the
given sources together with the `ScoreResult`-based `main`):
`advantage = strong_score_sum/N − total_score_sum/(N·entrant_count)`,
normalized by the model's fixed strength-advantage constant.  (Real
division has no executable code, hence `noncomputable`; no witness
evaluates this definition.) -/
noncomputable def reportedAdvantage (results : List ScoreResult) (m : ℕ) : ℝ :=
  ((results.map ScoreResult.strong_team).sum / (results.length : ℝ) -
    (results.map ScoreResult.all_teams).sum / ((results.length : ℝ) * m)) /
    STRONG_TEAM_ADVANTAGE

/-- C5: the reported advantage statistic equals
`(strong_score_sum/N − total_score_sum/(N·entrant_count))` divided by
the strength-advantage constant, where the two sums are the pointwise
sums of the `N` trials' `(strong_score, total_score)` pairs produced by
`Runner::get_score_result`; and each trial's pair consists of the
strong-conditioned and unconditional score sums over the scoring
table. -/
theorem claim_C5_advantage_statistic (scoring : List (Placement × ℝ))
    (finals : List (List (List Team))) (m : ℕ) :
    (∀ table : List (List Team),
      (get_score_result table scoring).strong_team =
        (scoring.map (fun pr =>
          if ((table.getD pr.1.component []).getD pr.1.position
              ⟨0, false⟩).strong then pr.2
          else 0)).sum ∧
      (get_score_result table scoring).all_teams =
        (scoring.map Prod.snd).sum) ∧
    reportedAdvantage (finals.map (fun table => get_score_result table scoring)) m =
      ((finals.map (fun table =>
          (get_score_result table scoring).strong_team)).sum /
          (finals.length : ℝ) -
        (finals.map (fun table =>
          (get_score_result table scoring).all_teams)).sum /
          ((finals.length : ℝ) * m)) / STRONG_TEAM_ADVANTAGE := by
  constructor
  · intro table
    constructor
    · rw [get_score_result, sumScoreResults_strong, List.map_map]
      rfl
    · rw [get_score_result, sumScoreResults_all, List.map_map]
      rfl
  · rw [reportedAdvantage, List.map_map, List.map_map, List.length_map]
    rfl

/-! ### Feasibility check (spec §4.8) -/

/-- Modelled from the spec: the feasibility check (absent from the
given sources together with the `ScoreResult`-based `main`).  `score e
r` is the strong-entrant score observed in repetition `r` of a full
trial with entrant `e` forced to be the strong one; the check runs `R`
repetitions for every entrant index `e < m` and rejects the definition
iff some entrant never receives a positive score. -/
def feasibilityRejects (m R : ℕ) (score : ℕ → ℕ → ℝ) : Prop :=
  ∃ e, e < m ∧ ∀ r, r < R → score e r ≤ 0

/-- Modelled from the spec: acceptance — every entrant receives a
positive score in at least one repetition. -/
def feasibilityAccepts (m R : ℕ) (score : ℕ → ℕ → ℝ) : Prop :=
  ∀ e, e < m → ∃ r, r < R ∧ 0 < score e r

/-- C9: the feasibility check rejects exactly when it does not accept,
and a definition with an entrant that structurally cannot win any
scored placement (its forced-strong score is 0 in every repetition) is
rejected. -/
theorem claim_C9_feasibility_check (m R : ℕ) (score : ℕ → ℕ → ℝ) :
    (feasibilityRejects m R score ↔ ¬ feasibilityAccepts m R score) ∧
    ((∃ e, e < m ∧ ∀ r, score e r = 0) → feasibilityRejects m R score) := by
  constructor
  · rw [feasibilityRejects, feasibilityAccepts]
    constructor
    · rintro ⟨e, hem, hall⟩ hacc
      obtain ⟨r, hrR, hpos⟩ := hacc e hem
      exact absurd (hall r hrR) (by linarith)
    · intro hnacc
      push_neg at hnacc
      obtain ⟨e, hem, hall⟩ := hnacc
      exact ⟨e, hem, hall⟩
  · rintro ⟨e, hem, hzero⟩
    exact ⟨e, hem, fun r _ => le_of_eq (hzero r)⟩

theorem claim_C9_witness :
    (∃ e, e < 1 ∧ ∀ r : ℕ, (0 : ℝ) = 0) ∧
      feasibilityRejects 1 1 (fun _ _ => (0 : ℝ)) :=
  ⟨⟨0, Nat.zero_lt_one, fun _ => rfl⟩,
    (claim_C9_feasibility_check 1 1 (fun _ _ => (0 : ℝ))).2
      ⟨0, Nat.zero_lt_one, fun _ => rfl⟩⟩

end Tournaments
